import Mathlib

/-!
# Shallow embedding of the reconciliation core of `src/app.py`

This file embeds the row-diff/persist/audit routine `update_table_data`
(together with its helpers `log_audit_change`, `get_table_schema`,
`get_table_data`) of the data-steward app, and proves the testable
properties of its specification against the embedding.

Modelling conventions:
* Python scalar values are `Val` (None, str, int, bool); `Val.pyStr` is
  Python's `str()`.
* A Python `dict` row is an association list `Row`; Python dict lookup is
  first-match lookup (dicts have unique keys; all concrete inputs used in
  witnesses have unique keys).  Dicts *built by the routine* (the
  `original_lookup` / `updated_lookup` comprehensions) are modelled as
  lists of bindings in insertion order with *last-binding-wins* lookup,
  which is exactly the overwrite semantics of repeated dict assignment.
* The body of `update_table_data` is split in two phases, exactly as the
  Python interleaves them at runtime:
  - `generate` produces the ordered trace of externally visible events
    (SQL statements on the transaction's cursor, and audit-row inserts
    performed by `log_audit_change`), plus the three counters and an
    optional uncaught-exception message (`KeyError` on a missing
    primary-key field is the one exception site reachable in the body);
  - `runTrace` executes the trace against a `Store`.  Statements are
    staged on the single transaction and committed only at the end;
    each audit write runs on its *own* connection inside
    `log_audit_change` and commits immediately (`conn.commit()` there),
    and a failing audit write is swallowed (`log_audit_change` returns
    `False`, which every caller ignores).  `failS`/`failA` say which
    statements / audit writes the database refuses, so that the
    fault-free run is the instance `failS = fun _ => false`,
    `failA = fun _ => false`.
* `Store.rows` is the single table being edited; fetching fresh data
  (`get_table_data`, a plain `SELECT *`) returns `Store.rows`.
  `Store.seq` models the `{table}_{pk_column}_seq` sequence consumed by
  `nextval` in the INSERT path, and `Store.audits` the audit table.
-/

inductive Val where
  | none
  | str (s : String)
  | int (n : Int)
  | bool (b : Bool)
deriving DecidableEq, Repr

deriving instance DecidableEq for Except

/-- Python `str(v)`. -/
def Val.pyStr : Val → String
  | Val.none => "None"
  | Val.str s => s
  | Val.int n => toString n
  | Val.bool b => if b then "True" else "False"

/-- Python truthiness of a value, used on the `__new_row` marker. -/
def Val.truthy : Val → Bool
  | Val.none => false
  | Val.str s => !(s == "")
  | Val.int n => !(n == 0)
  | Val.bool b => b

/-- `str(record_id)`-style conversion used by `log_audit_change`:
`str(v) if v is not None else None`. -/
def optStr : Val → Option String
  | Val.none => Option.none
  | v => some v.pyStr

abbrev Row := List (String × Val)

namespace Row

/-- Python dict lookup `r[k]` / `r.get(k)` (first binding with key `k`). -/
def find? (r : Row) (k : String) : Option Val :=
  (List.find? (fun p => p.1 = k) r).map (fun p => p.2)

/-- Python `k in r`. -/
def contains (r : Row) (k : String) : Bool :=
  (r.find? k).isSome

end Row

/-- `k.startswith('__')` for the transient marker fields. -/
def isMarkerKey (k : String) : Bool :=
  k.toList.take 2 == [Char.ofNat 95, Char.ofNat 95]

/-- The comprehension `{k: v for k, v in row.items() if not k.startswith('__')}`. -/
def Row.clean (r : Row) : Row :=
  r.filter (fun p => !isMarkerKey p.1)

/-- `'__new_row' in row and row['__new_row']` (also
`row.get('__new_row', False)` under truthiness, which agrees with it). -/
def isNewMarked (r : Row) : Bool :=
  match r.find? "__new_row" with
  | some v => v.truthy
  | Option.none => false

/-- Python truthiness of `original_row` (a dict-or-None):
`not original_row` is true for `None` and for an empty dict. -/
def rowFalsy : Option Row → Bool
  | Option.none => true
  | some r => r.isEmpty

/-- Python whitespace for `str.strip()`. -/
def isPyWhitespace (c : Char) : Bool :=
  c == ' ' || c == '\t' || c == '\n' || c == '\r' || c == '\x0b' || c == '\x0c'

/-- Python `s.strip()`. -/
def pyStrip (s : String) : String :=
  String.mk (((s.toList.dropWhile isPyWhitespace).reverse.dropWhile isPyWhitespace).reverse)

/-- `pk_value == '' or pk_value is None or str(pk_value).strip() == ''`.
(Only a string equals `''` under Python `==`, so the first test is
structural equality with `Val.str ""`.) -/
def pkEmpty (v : Val) : Bool :=
  v == Val.str "" || v == Val.none || pyStrip v.pyStr == ""

/-- `clean_row[col] != '' and clean_row[col] is not None` fails exactly here. -/
def emptyStrOrNone (v : Val) : Bool :=
  v == Val.str "" || v == Val.none

/-- `str(KeyError(k))`, the message produced when a row lacks the
primary-key field (Python renders it as the repr of the key). -/
def keyErrorMsg (k : String) : String :=
  "\x27" ++ k ++ "\x27"

/-- Message for a statement the database refuses (`str(e)` of the driver
exception; its exact text is opaque to the program). -/
def dbErrMsg : String := "database error"

/-- One row of the `data_steward_audit` table as written by
`log_audit_change` (the serial id and default timestamp are omitted). -/
structure AuditEntry where
  username : String
  tableName : String
  recordId : String
  columnName : String
  oldValue : Option String
  newValue : Option String
  actionType : String
deriving DecidableEq, Repr

/-- The row `log_audit_change(table, record_id, col, old, new, user, action)`
inserts: `record_id` is stringified, old/new become
`str(v) if v is not None else None`. -/
def mkAudit (user table : String) (recId : Val) (col : String)
    (oldV newV : Val) (action : String) : AuditEntry :=
  { username := user, tableName := table, recordId := recId.pyStr,
    columnName := col, oldValue := optStr oldV, newValue := optStr newV,
    actionType := action }

/-- The parameterized SQL statements `update_table_data` executes on the
transaction's cursor. -/
inductive Stmt where
  | insertRow (table : String) (pkCol : String) (seqLit : String)
      (cols : List String) (vals : List Val)
  | updateRow (table : String) (sets : List (String × Val))
      (pkCol : String) (pkVal : Val)
  | deleteRow (table : String) (pkCol : String) (pkVal : Val)
deriving DecidableEq, Repr

/-- An externally visible event, in execution order: a statement on the
reconciliation transaction, or an audit write (which `log_audit_change`
commits immediately on its own connection). -/
inductive Event where
  | stmt (s : Stmt)
  | audit (a : AuditEntry)
deriving DecidableEq, Repr

/-- The mutable locals of `update_table_data` threaded through the loops. -/
structure GenState where
  events : List Event
  inserts : Nat
  changes : Nat
  deletes : Nat
  seq : Int
deriving DecidableEq, Repr

/-- `original_lookup = {str(row[pk_column]): row for row in original_data}`;
raises `KeyError` at the first row lacking the primary-key field.
Bindings are kept in insertion order; `lookupDict` takes the last one. -/
def buildLookup (pk : String) : List Row → Except String (List (String × Row))
  | [] => Except.ok []
  | r :: rs =>
    match Row.find? r pk with
    | Option.none => Except.error (keyErrorMsg pk)
    | some v =>
      match buildLookup pk rs with
      | Except.error m => Except.error m
      | Except.ok d => Except.ok ((v.pyStr, r) :: d)

/-- Python dict lookup on a binding list: the *last* binding wins. -/
def lookupDict (d : List (String × Row)) (k : String) : Option Row :=
  (List.find? (fun p => p.1 = k) d.reverse).map (fun p => p.2)

/-- Python `k in d`. -/
def memDict (d : List (String × Row)) (k : String) : Bool :=
  d.any (fun p => p.1 = k)

/-- `insert_columns = [col for col in columns[1:] if col in clean_row and
clean_row[col] != '' and clean_row[col] is not None]`. -/
def newRowCols (rest : List String) (cleanRow : Row) : List String :=
  rest.filter (fun c =>
    match Row.find? cleanRow c with
    | some v => !emptyStrOrNone v
    | Option.none => false)

/-- One iteration of the column-comparison loop of the UPDATE branch:
accumulates the SET clause, the audit events already written, and
`changes_count` increments. -/
def updStep (user table : String) (pkValue : Val) (orow row : Row)
    (acc : List (String × Val) × List Event × Nat) (c : String) :
    List (String × Val) × List Event × Nat :=
  if Row.contains row c then
    let oldV := (Row.find? orow c).getD Val.none
    let newV := (Row.find? row c).getD Val.none
    if oldV.pyStr ≠ newV.pyStr then
      (acc.1 ++ [(c, newV)],
       acc.2.1 ++ [Event.audit (mkAudit user table pkValue c oldV newV "UPDATE")],
       acc.2.2 + 1)
    else acc
  else acc

/-- The body of `for row in updated_data:` in `update_table_data`:
classification (new / unmatched / matched), the INSERT branch with its
sequence-generated key and per-column INSERT audits, and the UPDATE
branch with its per-column UPDATE audits followed by at most one UPDATE
statement.  The only exception site is the `KeyError` raised by
`clean_row[pk_column]`. -/
def procRow (pk : String) (rest : List String) (table schemaName user : String)
    (origLookup : List (String × Row)) (st : GenState) (row : Row) :
    Except (String × GenState) GenState :=
  let cleanRow := Row.clean row
  match Row.find? cleanRow pk with
  | Option.none => Except.error (keyErrorMsg pk, st)
  | some pkValue =>
    let originalRow := lookupDict origLookup pkValue.pyStr
    let isNew := isNewMarked row || (rowFalsy originalRow && pkEmpty pkValue)
    if isNew then
      let insertCols := newRowCols rest cleanRow
      if insertCols.isEmpty then Except.ok st
      else
        let vals := insertCols.map (fun c => (Row.find? cleanRow c).getD Val.none)
        let newPk := Val.int st.seq
        let seqLit := schemaName ++ "." ++ table ++ "_" ++ pk ++ "_seq"
        let auditEvs := insertCols.map (fun c =>
          Event.audit (mkAudit user table newPk c Val.none
            ((Row.find? cleanRow c).getD Val.none) "INSERT"))
        Except.ok { st with
          events := st.events ++ Event.stmt (Stmt.insertRow table pk seqLit insertCols vals) :: auditEvs,
          inserts := st.inserts + 1, seq := st.seq + 1 }
    else if rowFalsy originalRow then Except.ok st
    else
      let orow := originalRow.getD []
      let res := rest.foldl (updStep user table pkValue orow row) ([], [], 0)
      if res.1.isEmpty then
        Except.ok { st with events := st.events ++ res.2.1, changes := st.changes + res.2.2 }
      else
        Except.ok { st with
          events := st.events ++ res.2.1 ++ [Event.stmt (Stmt.updateRow table res.1 pk pkValue)],
          changes := st.changes + res.2.2 }

/-- The loop `for row in updated_data: ...`. -/
def foldProcRows (pk : String) (rest : List String) (table schemaName user : String)
    (origLookup : List (String × Row)) (st : GenState) :
    List Row → Except (String × GenState) GenState
  | [] => Except.ok st
  | r :: rs =>
    match procRow pk rest table schemaName user origLookup st r with
    | Except.error e => Except.error e
    | Except.ok st2 => foldProcRows pk rest table schemaName user origLookup st2 rs

/-- `updated_lookup`: cleaned current rows, excluding rows whose
`__new_row` marker is truthy and rows whose cleaned form lacks the
primary-key field, keyed by stringified primary key. -/
def buildUpdLookup (pk : String) (current : List Row) : List (String × Row) :=
  current.foldl (fun acc row =>
    let c := Row.clean row
    if !isNewMarked row && Row.contains c pk then
      acc ++ [(((Row.find? c pk).getD Val.none).pyStr, c)]
    else acc) []

/-- The body of `for orig_row in original_data:` in the deletion pass:
one DELETE statement followed by one DELETE audit per non-primary-key
column present in the original row (`new_value = None`). -/
def procDelRow (pk : String) (rest : List String) (table user : String)
    (updLookup : List (String × Row)) (st : GenState) (orow : Row) :
    Except (String × GenState) GenState :=
  match Row.find? orow pk with
  | Option.none => Except.error (keyErrorMsg pk, st)
  | some pkVal =>
    if memDict updLookup pkVal.pyStr then Except.ok st
    else
      let auditEvs := (rest.filter (fun c => Row.contains orow c)).map (fun c =>
        Event.audit (mkAudit user table pkVal c
          ((Row.find? orow c).getD Val.none) Val.none "DELETE"))
      Except.ok { st with
        events := st.events ++ Event.stmt (Stmt.deleteRow table pk pkVal) :: auditEvs,
        deletes := st.deletes + 1 }

/-- The deletion pass loop. -/
def foldDelRows (pk : String) (rest : List String) (table user : String)
    (updLookup : List (String × Row)) (st : GenState) :
    List Row → Except (String × GenState) GenState
  | [] => Except.ok st
  | r :: rs =>
    match procDelRow pk rest table user updLookup st r with
    | Except.error e => Except.error e
    | Except.ok st2 => foldDelRows pk rest table user updLookup st2 rs

/-- The event trace, final counters, and optional uncaught-exception
message produced by one call of `update_table_data` (everything between
obtaining the schema columns and `conn.commit()`). -/
def generate (pk : String) (rest : List String) (table schemaName user : String)
    (current original : List Row) (seq0 : Int) :
    List Event × Nat × Nat × Nat × Option String :=
  match buildLookup pk original with
  | Except.error m => ([], 0, 0, 0, some m)
  | Except.ok origLookup =>
    match foldProcRows pk rest table schemaName user origLookup
        { events := [], inserts := 0, changes := 0, deletes := 0, seq := seq0 } current with
    | Except.error (m, st) => (st.events, st.inserts, st.changes, st.deletes, some m)
    | Except.ok st =>
      match foldDelRows pk rest table user (buildUpdLookup pk current) st original with
      | Except.error (m, st2) => (st2.events, st2.inserts, st2.changes, st2.deletes, some m)
      | Except.ok st2 => (st2.events, st2.inserts, st2.changes, st2.deletes, Option.none)

/-- The backing store: the one table being edited, the audit table, and
the current value of the `{table}_{pk_column}_seq` sequence. -/
structure Store where
  rows : List Row
  audits : List AuditEntry
  seq : Int
deriving DecidableEq, Repr

/-- `SET c = v` on one row: replaces the value of column `c`. -/
def setCol (r : Row) (c : String) (v : Val) : Row :=
  r.map (fun p => if p.1 = c then (c, v) else p)

/-- Applying a whole SET clause to one row. -/
def applySets (sets : List (String × Val)) (r : Row) : Row :=
  sets.foldl (fun r2 p => setCol r2 p.1 p.2) r

/-- Effect of one SQL statement on the store.  The INSERT draws the new
primary key from the sequence (`nextval`); columns not listed are
absent (column defaults other than the key are out of scope). -/
def applyStmt (st : Store) : Stmt → Store
  | Stmt.insertRow _ pkCol _ cols vals =>
    { st with rows := st.rows ++ [(pkCol, Val.int st.seq) :: List.zip cols vals],
              seq := st.seq + 1 }
  | Stmt.updateRow _ sets pkCol pkVal =>
    { st with rows := st.rows.map (fun r =>
        if Row.find? r pkCol == some pkVal then applySets sets r
        else r) }
  | Stmt.deleteRow _ pkCol pkVal =>
    { st with rows := st.rows.filter (fun r => !(Row.find? r pkCol == some pkVal)) }

/-- Executes the event trace.  Statements are staged on the single
transaction (`work`); a refused statement aborts it: the table reverts
to `base.rows` (`rollback`), while audit rows — committed immediately by
`log_audit_change` on its own connection — survive.  Audit writes the
database refuses are swallowed.  The sequence is non-transactional, as
in PostgreSQL. -/
def runTrace (failS : Stmt → Bool) (failA : AuditEntry → Bool) (base : Store) :
    List Event → Store → Store × Option String
  | [], work => (work, Option.none)
  | Event.stmt s :: evs, work =>
    if failS s then ({ work with rows := base.rows }, some dbErrMsg)
    else runTrace failS failA base evs (applyStmt work s)
  | Event.audit a :: evs, work =>
    if failA a then runTrace failS failA base evs work
    else runTrace failS failA base evs { work with audits := work.audits ++ [a] }

/-- `" and ".join(message_parts) + " - all logged"` or
`"No changes detected"`. -/
def summaryMsg (ins chg del : Nat) : String :=
  let parts : List String :=
    (if ins > 0 then [toString ins ++ " new rows inserted"] else []) ++
    (if chg > 0 then [toString chg ++ " changes made"] else []) ++
    (if del > 0 then [toString del ++ " rows deleted"] else [])
  if parts.isEmpty then "No changes detected"
  else String.intercalate " and " parts ++ " - all logged"

/-- The `(success, message)` pair together with the store afterwards. -/
structure RunResult where
  store : Store
  ok : Bool
  msg : String
deriving DecidableEq, Repr

/-- `update_table_data(table_name, updated_data, original_data, schema)`.
`cols` is the schema-ordered column list from `get_table_schema`; empty
means the early `return False, "Could not get table schema"`.  The
top-level `except` turns the `KeyError` carried by `generate` (and any
statement the database refuses) into `(False, str(e))`; an abort rolls
the table back but keeps the independently committed audit rows. -/
def updateTableData (cols : List String) (table schemaName user : String)
    (current original : List Row) (store0 : Store)
    (failS : Stmt → Bool) (failA : AuditEntry → Bool) : RunResult :=
  match cols with
  | [] => { store := store0, ok := false, msg := "Could not get table schema" }
  | pk :: rest =>
    match generate pk rest table schemaName user current original store0.seq with
    | (evs, ins, chg, del, err) =>
      match runTrace failS failA store0 evs store0 with
      | (st, some m) => { store := st, ok := false, msg := m }
      | (st, Option.none) =>
        match err with
        | some m => { store := { st with rows := store0.rows }, ok := false, msg := m }
        | Option.none => { store := st, ok := true, msg := summaryMsg ins chg del }

/-! ## Derived notions used in theorem statements -/

/-- `str(row[pk_column])` on a raw row. -/
def strPkRaw (pk : String) (o : Row) : String :=
  ((Row.find? o pk).getD Val.none).pyStr

/-- `str(clean_row[pk_column])`. -/
def strPkClean (pk : String) (r : Row) : String :=
  strPkRaw pk (Row.clean r)

/-- The non-primary-key columns whose stringified values differ between
the matched original row and the current row (`str(old) != str(new)`),
in schema order. -/
def diffCols (rest : List String) (orow row : Row) : List String :=
  rest.filter (fun c =>
    Row.contains row c &&
      !(((Row.find? orow c).getD Val.none).pyStr == ((Row.find? row c).getD Val.none).pyStr))

/-- The SET clause the UPDATE branch accumulates for a matched row. -/
def updSets (rest : List String) (orow row : Row) : List (String × Val) :=
  (diffCols rest orow row).map (fun c => (c, (Row.find? row c).getD Val.none))

/-- The UPDATE audit events the column loop writes for a matched row. -/
def updAudits (user table : String) (pkv : Val) (rest : List String) (orow row : Row) :
    List Event :=
  (diffCols rest orow row).map (fun c =>
    Event.audit (mkAudit user table pkv c ((Row.find? orow c).getD Val.none)
      ((Row.find? row c).getD Val.none) "UPDATE"))

/-- Statements of a trace, in order. -/
def stmtsOf (evs : List Event) : List Stmt :=
  evs.filterMap (fun e => match e with | Event.stmt s => some s | Event.audit _ => Option.none)

/-- Audit writes of a trace, in order. -/
def auditsOf (evs : List Event) : List AuditEntry :=
  evs.filterMap (fun e => match e with | Event.stmt _ => Option.none | Event.audit a => some a)

/-- Folding a statement list into the store. -/
def applyStmts (st : Store) (l : List Stmt) : Store :=
  l.foldl applyStmt st

/-! ## Association-list and row lemmas -/

theorem Row.find?_cons (k : String) (v : Val) (r : Row) (k2 : String) :
    Row.find? ((k, v) :: r) k2 = if k = k2 then some v else Row.find? r k2 := by
  by_cases h : k = k2 <;> simp [Row.find?, List.find?, h]

theorem Row.find?_nil (k : String) : Row.find? [] k = Option.none := rfl

theorem Row.contains_iff (r : Row) (k : String) :
    Row.contains r k = true ↔ ∃ v, Row.find? r k = some v := by
  simp [Row.contains, Option.isSome_iff_exists]

theorem Row.find?_clean (r : Row) (k : String) (h : isMarkerKey k = false) :
    Row.find? (Row.clean r) k = Row.find? r k := by
  induction r with
  | nil => rfl
  | cons p r ih =>
    rcases p with ⟨k2, v⟩
    by_cases hm : isMarkerKey k2 = true
    · have hk : ¬ k2 = k := fun hh => by rw [hh, h] at hm; exact Bool.noConfusion hm
      have hcl : Row.clean ((k2, v) :: r) = Row.clean r := by
        simp [Row.clean, List.filter_cons, hm]
      rw [hcl, ih, Row.find?_cons, if_neg hk]
    · have hcl : Row.clean ((k2, v) :: r) = (k2, v) :: Row.clean r := by
        simp [Row.clean, List.filter_cons, hm]
      rw [hcl, Row.find?_cons, Row.find?_cons, ih]

theorem Row.contains_clean (r : Row) (k : String) (h : isMarkerKey k = false) :
    Row.contains (Row.clean r) k = Row.contains r k := by
  simp [Row.contains, Row.find?_clean r k h]

theorem setCol_cons (k2 : String) (v2 : Val) (r : Row) (c : String) (v : Val) :
    setCol ((k2, v2) :: r) c v =
      (if k2 = c then (c, v) else (k2, v2)) :: setCol r c v := by
  by_cases hc : k2 = c <;> simp [setCol, hc]

theorem setCol_find?_ne (r : Row) (c k : String) (v : Val) (h : c ≠ k) :
    Row.find? (setCol r c v) k = Row.find? r k := by
  induction r with
  | nil => rfl
  | cons p r ih =>
    rcases p with ⟨k2, v2⟩
    by_cases hc : k2 = c
    · have hck : ¬ k2 = k := by rw [hc]; exact h
      rw [setCol_cons, if_pos hc, Row.find?_cons, if_neg h, Row.find?_cons, if_neg hck, ih]
    · rw [setCol_cons, if_neg hc, Row.find?_cons, Row.find?_cons, ih]

theorem setCol_find?_self (r : Row) (c : String) (v : Val)
    (h : Row.contains r c = true) : Row.find? (setCol r c v) c = some v := by
  induction r with
  | nil => simp [Row.contains, Row.find?] at h
  | cons p r ih =>
    rcases p with ⟨k2, v2⟩
    by_cases hc : k2 = c
    · rw [setCol_cons, if_pos hc, Row.find?_cons, if_pos rfl]
    · have h' : Row.contains r c = true := by
        simpa [Row.contains, Row.find?_cons, hc] using h
      rw [setCol_cons, if_neg hc, Row.find?_cons, if_neg hc, ih h']

theorem setCol_keys (r : Row) (c : String) (v : Val) :
    (setCol r c v).map Prod.fst = r.map Prod.fst := by
  induction r with
  | nil => rfl
  | cons p r ih =>
    by_cases hc : p.1 = c
    · simp [setCol, hc] at ih ⊢; simpa [hc] using ih
    · simp [setCol, hc] at ih ⊢; simpa using ih

/-- A row whose key list is `ks` is determined by lookups, provided the
keys are distinct. -/
theorem row_eq_map_of_keys (r : Row) (ks : List String)
    (hk : r.map Prod.fst = ks) (hnd : ks.Nodup) :
    r = ks.map (fun c => (c, (Row.find? r c).getD Val.none)) := by
  induction ks generalizing r with
  | nil => cases r <;> simp_all
  | cons k ks ih =>
    cases r with
    | nil => simp at hk
    | cons p r =>
      obtain ⟨hp, hr⟩ : p.1 = k ∧ r.map Prod.fst = ks := by
        simpa using hk
      have hnd' : ks.Nodup := hnd.of_cons
      have hkn : k ∉ ks := by simp [List.nodup_cons] at hnd; exact hnd.1
      have hfind : ∀ c ∈ ks, Row.find? (p :: r) c = Row.find? r c := by
        intro c hc
        have : p.1 ≠ c := by rw [hp]; exact fun h => hkn (h ▸ hc)
        simp [Row.find?, List.find?, this]
      have hhead : Row.find? (p :: r) k = some p.2 := by
        simp [Row.find?, List.find?, hp]
      have := ih r hr hnd'
      calc p :: r = (p.1, p.2) :: r := by simp
        _ = (k, (Row.find? (p :: r) k).getD Val.none) :: r := by rw [hp, hhead]; rfl
        _ = (k, (Row.find? (p :: r) k).getD Val.none) ::
              ks.map (fun c => (c, (Row.find? r c).getD Val.none)) := by rw [← this]
        _ = (k, (Row.find? (p :: r) k).getD Val.none) ::
              ks.map (fun c => (c, (Row.find? (p :: r) c).getD Val.none)) := by
              congr 1
              exact (List.map_congr_left (fun c hc => by rw [hfind c hc])).symm
        _ = (k :: ks).map (fun c => (c, (Row.find? (p :: r) c).getD Val.none)) := rfl

/-! ## Dictionary lemmas -/

theorem memDict_iff (d : List (String × Row)) (k : String) :
    memDict d k = true ↔ ∃ r, (k, r) ∈ d := by
  constructor
  · intro h
    obtain ⟨p, hp, he⟩ := List.any_eq_true.mp h
    exact ⟨p.2, by have : p.1 = k := by simpa using he
                   rw [← this]; exact hp⟩
  · rintro ⟨r, hr⟩
    exact List.any_eq_true.mpr ⟨(k, r), hr, by simp⟩

theorem lookupDict_eq_none (d : List (String × Row)) (k : String)
    (h : memDict d k = false) : lookupDict d k = Option.none := by
  have hall : ∀ p ∈ d, ¬ p.1 = k := by
    intro p hp he
    rw [Bool.eq_false_iff] at h
    exact h (List.any_eq_true.mpr ⟨p, hp, by simpa using he⟩)
  unfold lookupDict
  rw [List.find?_eq_none.mpr (fun p hp => by
    simpa using hall p (List.mem_reverse.mp hp))]
  rfl

theorem keys_unique {d : List (String × Row)} (hnd : (d.map Prod.fst).Nodup)
    {k : String} {a b : Row} (ha : (k, a) ∈ d) (hb : (k, b) ∈ d) : a = b := by
  induction d with
  | nil => simp at ha
  | cons p d ih =>
    rw [List.map_cons, List.nodup_cons] at hnd
    rcases List.mem_cons.mp ha with h1 | h1 <;> rcases List.mem_cons.mp hb with h2 | h2
    · exact congrArg Prod.snd (h1.trans h2.symm)
    · exact absurd (List.mem_map.mpr ⟨(k, b), h2, by rw [← h1]⟩) hnd.1
    · exact absurd (List.mem_map.mpr ⟨(k, a), h1, by rw [← h2]⟩) hnd.1
    · exact ih hnd.2 h1 h2

theorem lookupDict_unique (d : List (String × Row)) (k : String) (r : Row)
    (hnd : (d.map Prod.fst).Nodup) (hm : (k, r) ∈ d) : lookupDict d k = some r := by
  have hsome : (List.find? (fun p => p.1 = k) d.reverse).isSome := by
    rw [List.find?_isSome]
    exact ⟨(k, r), List.mem_reverse.mpr hm, by simp⟩
  obtain ⟨q, hq⟩ := Option.isSome_iff_exists.mp hsome
  have hqk : q.1 = k := by simpa using List.find?_some hq
  have hqm : q ∈ d := List.mem_reverse.mp (List.mem_of_find?_eq_some hq)
  have : q.2 = r := by
    refine keys_unique hnd ?_ hm
    rw [← hqk]; simpa using hqm
  unfold lookupDict
  rw [hq]
  simp [this]

/-- With every original row carrying the primary-key field, the lookup
builds successfully as the list of `(str(row[pk]), row)` bindings. -/
theorem buildLookup_ok (pk : String) (original : List Row)
    (h : ∀ r ∈ original, Row.contains r pk = true) :
    buildLookup pk original = Except.ok (original.map (fun o => (strPkRaw pk o, o))) := by
  induction original with
  | nil => rfl
  | cons r rs ih =>
    obtain ⟨v, hv⟩ := (Row.contains_iff r pk).mp (h r (List.mem_cons_self r rs))
    have := ih (fun x hx => h x (List.mem_cons_of_mem r hx))
    simp [buildLookup, hv, this, strPkRaw]

/-- The `KeyError` raised while building the lookup. -/
theorem buildLookup_error (pk : String) (original : List Row)
    (h : ∃ r ∈ original, Row.contains r pk = false) :
    buildLookup pk original = Except.error (keyErrorMsg pk) := by
  induction original with
  | nil => simp at h
  | cons r rs ih =>
    by_cases hr : Row.contains r pk = true
    · obtain ⟨v, hv⟩ := (Row.contains_iff r pk).mp hr
      have hex : ∃ x ∈ rs, Row.contains x pk = false := by
        obtain ⟨x, hx, hxf⟩ := h
        rcases List.mem_cons.mp hx with h1 | h1
        · rw [h1] at hxf; rw [hxf] at hr; exact Bool.noConfusion hr
        · exact ⟨x, h1, hxf⟩
      simp [buildLookup, hv, ih hex]
    · have hn : Row.find? r pk = Option.none := by
        cases hf : Row.find? r pk with
        | none => rfl
        | some v => exact absurd ((Row.contains_iff r pk).mpr ⟨v, hf⟩) hr
      simp [buildLookup, hn]

/-- Membership in `updated_lookup`: exactly the stringified primary keys
of cleaned current rows that are not marked new and carry the key field. -/
theorem memDict_buildUpdLookup (pk : String) (current : List Row) (k : String) :
    memDict (buildUpdLookup pk current) k =
      current.any (fun r => !isNewMarked r && Row.contains (Row.clean r) pk &&
        (strPkClean pk r = k)) := by
  suffices h : ∀ acc : List (String × Row),
      memDict (current.foldl (fun acc row =>
        let c := Row.clean row
        if !isNewMarked row && Row.contains c pk then
          acc ++ [(((Row.find? c pk).getD Val.none).pyStr, c)]
        else acc) acc) k =
      (memDict acc k || current.any (fun r => !isNewMarked r && Row.contains (Row.clean r) pk &&
        (strPkClean pk r = k))) by
    have := h []
    simpa [buildUpdLookup, memDict] using this
  induction current with
  | nil => intro acc; simp [memDict]
  | cons r rs ih =>
    intro acc
    rw [List.foldl_cons, List.any_cons]
    by_cases hm : (!isNewMarked r && Row.contains (Row.clean r) pk) = true
    · simp only [hm, if_true, Bool.true_and]
      rw [ih]
      simp [memDict, List.any_append, List.any_cons, strPkClean, strPkRaw, Bool.or_assoc]
    · have hb : (!isNewMarked r && Row.contains (Row.clean r) pk) = false :=
        Bool.eq_false_iff.mpr hm
      simp only [hb, if_false, Bool.false_and, Bool.false_or]
      exact ih acc

/-! ## The column-comparison loop -/

theorem diffCols_nil (orow row : Row) : diffCols [] orow row = [] := rfl

theorem diffCols_cons (c : String) (cs : List String) (orow row : Row) :
    diffCols (c :: cs) orow row =
      if (Row.contains row c &&
          !(((Row.find? orow c).getD Val.none).pyStr == ((Row.find? row c).getD Val.none).pyStr)) then
        c :: diffCols cs orow row
      else diffCols cs orow row := by
  simp [diffCols, List.filter_cons]

theorem updStep_foldl (user table : String) (pkv : Val) (orow row : Row)
    (rest : List String) (s : List (String × Val)) (e : List Event) (n : Nat) :
    rest.foldl (updStep user table pkv orow row) (s, e, n) =
      (s ++ updSets rest orow row,
       e ++ updAudits user table pkv rest orow row,
       n + (diffCols rest orow row).length) := by
  induction rest generalizing s e n with
  | nil => simp [updSets, updAudits, diffCols]
  | cons c cs ih =>
    rw [List.foldl_cons]
    by_cases hc : Row.contains row c = true
    · by_cases hd : ((Row.find? orow c).getD Val.none).pyStr = ((Row.find? row c).getD Val.none).pyStr
      · have hstep : updStep user table pkv orow row (s, e, n) c = (s, e, n) := by
          simp [updStep, hc, hd]
        rw [hstep, ih]
        have hdc : diffCols (c :: cs) orow row = diffCols cs orow row := by
          rw [diffCols_cons, if_neg]; simp [hc, hd]
        simp only [updSets, updAudits, hdc]
      · have hstep : updStep user table pkv orow row (s, e, n) c =
            (s ++ [(c, (Row.find? row c).getD Val.none)],
             e ++ [Event.audit (mkAudit user table pkv c ((Row.find? orow c).getD Val.none)
               ((Row.find? row c).getD Val.none) "UPDATE")],
             n + 1) := by
          simp [updStep, hc, hd]
        rw [hstep, ih]
        have hdc : diffCols (c :: cs) orow row = c :: diffCols cs orow row := by
          rw [diffCols_cons, if_pos]; simp [hc, hd]
        simp only [updSets, updAudits, hdc, List.map_cons, List.length_cons, Prod.mk.injEq]
        refine ⟨?_, ?_, ?_⟩
        · simp [List.append_assoc]
        · simp [List.append_assoc]
        · omega
    · have hcf : Row.contains row c = false := Bool.eq_false_iff.mpr hc
      have hstep : updStep user table pkv orow row (s, e, n) c = (s, e, n) := by
        simp [updStep, hcf]
      rw [hstep, ih]
      have hdc : diffCols (c :: cs) orow row = diffCols cs orow row := by
        rw [diffCols_cons, if_neg]; simp [hcf]
      simp only [updSets, updAudits, hdc]

/-! ## `procRow` case lemmas -/

/-- A current row that carries the new-row classification and has no
non-empty, non-null schema column: skipped with no effect at all. -/
theorem procRow_new_skip (pk : String) (rest : List String)
    (table schemaName user : String) (origLookup : List (String × Row))
    (st : GenState) (row : Row) (pkv : Val)
    (hpk : Row.find? (Row.clean row) pk = some pkv)
    (hnew : (isNewMarked row ||
      (rowFalsy (lookupDict origLookup pkv.pyStr) && pkEmpty pkv)) = true)
    (hcols : newRowCols rest (Row.clean row) = []) :
    procRow pk rest table schemaName user origLookup st row = Except.ok st := by
  simp only [procRow, hpk, hnew, if_true, hcols, List.isEmpty_nil]

/-- A current row that carries the new-row classification and at least
one populated schema column: one INSERT with the sequence-generated
primary key, one INSERT audit per inserted column (old value null),
insert counter incremented. -/
theorem procRow_new_insert (pk : String) (rest : List String)
    (table schemaName user : String) (origLookup : List (String × Row))
    (st : GenState) (row : Row) (pkv : Val)
    (hpk : Row.find? (Row.clean row) pk = some pkv)
    (hnew : (isNewMarked row ||
      (rowFalsy (lookupDict origLookup pkv.pyStr) && pkEmpty pkv)) = true)
    (hcols : newRowCols rest (Row.clean row) ≠ []) :
    procRow pk rest table schemaName user origLookup st row =
      Except.ok { st with
        events := st.events ++
          Event.stmt (Stmt.insertRow table pk
            (schemaName ++ "." ++ table ++ "_" ++ pk ++ "_seq")
            (newRowCols rest (Row.clean row))
            ((newRowCols rest (Row.clean row)).map
              (fun c => (Row.find? (Row.clean row) c).getD Val.none))) ::
          (newRowCols rest (Row.clean row)).map (fun c =>
            Event.audit (mkAudit user table (Val.int st.seq) c Val.none
              ((Row.find? (Row.clean row) c).getD Val.none) "INSERT")),
        inserts := st.inserts + 1, seq := st.seq + 1 } := by
  have hcols2 : (newRowCols rest (Row.clean row)).isEmpty = false :=
    List.isEmpty_eq_false.mpr hcols
  simp only [procRow, hpk, hnew, if_true, hcols2, Bool.false_eq_true, if_false]

/-- A matched current row (not classified new, with a non-falsy matching
original row): per-column UPDATE audits for the differing columns, then
one UPDATE statement iff at least one column differs. -/
theorem procRow_matched (pk : String) (rest : List String)
    (table schemaName user : String) (origLookup : List (String × Row))
    (st : GenState) (row : Row) (pkv : Val) (orow : Row)
    (hpk : Row.find? (Row.clean row) pk = some pkv)
    (hmk : isNewMarked row = false)
    (hlk : lookupDict origLookup pkv.pyStr = some orow)
    (hne : orow.isEmpty = false) :
    procRow pk rest table schemaName user origLookup st row =
      Except.ok { st with
        events := st.events ++ updAudits user table pkv rest orow row ++
          (if (diffCols rest orow row).isEmpty then []
           else [Event.stmt (Stmt.updateRow table (updSets rest orow row) pk pkv)]),
        changes := st.changes + (diffCols rest orow row).length } := by
  simp only [procRow, hpk, hlk, hmk, rowFalsy, hne, Bool.false_or, Bool.false_and,
    Bool.and_false, Bool.false_eq_true, if_false, Option.getD_some, updStep_foldl,
    List.nil_append, Nat.zero_add]
  by_cases hd : (diffCols rest orow row).isEmpty = true
  · have hd' : diffCols rest orow row = [] := List.isEmpty_iff.mp hd
    have hs : (updSets rest orow row).isEmpty = true := by
      simp [updSets, List.isEmpty_iff, hd']
    simp [hs, hd, updAudits, updSets, hd']
  · have hd' : ¬ diffCols rest orow row = [] := by
      simpa [List.isEmpty_iff] using hd
    have hs : (updSets rest orow row).isEmpty = false := by
      simp [updSets, List.map_eq_nil_iff, hd']
    have hdf : (diffCols rest orow row).isEmpty = false :=
      List.isEmpty_eq_false.mpr hd'
    simp [hs, hdf, List.append_assoc]

/-- A current row that is not marked new, has a non-empty primary key,
and matches nothing in the original snapshot: silently skipped. -/
theorem procRow_unmatched (pk : String) (rest : List String)
    (table schemaName user : String) (origLookup : List (String × Row))
    (st : GenState) (row : Row) (pkv : Val)
    (hpk : Row.find? (Row.clean row) pk = some pkv)
    (hmk : isNewMarked row = false)
    (hlk : rowFalsy (lookupDict origLookup pkv.pyStr) = true)
    (hpke : pkEmpty pkv = false) :
    procRow pk rest table schemaName user origLookup st row = Except.ok st := by
  simp only [procRow, hpk, hmk, hlk, hpke, Bool.false_or, Bool.and_false,
    Bool.false_eq_true, if_false, if_true]

/-- The `KeyError` exception site: the cleaned row lacks the primary-key
field. -/
theorem procRow_error (pk : String) (rest : List String)
    (table schemaName user : String) (origLookup : List (String × Row))
    (st : GenState) (row : Row)
    (h : Row.find? (Row.clean row) pk = Option.none) :
    procRow pk rest table schemaName user origLookup st row =
      Except.error (keyErrorMsg pk, st) := by
  simp only [procRow, h]

/-- Any row carrying the primary-key field is processed without an
exception. -/
theorem procRow_ok_of_contains (pk : String) (rest : List String)
    (table schemaName user : String) (origLookup : List (String × Row))
    (st : GenState) (row : Row)
    (h : Row.contains (Row.clean row) pk = true) :
    ∃ st2, procRow pk rest table schemaName user origLookup st row = Except.ok st2 := by
  obtain ⟨v, hv⟩ := (Row.contains_iff _ pk).mp h
  by_cases hnew : (isNewMarked row || (rowFalsy (lookupDict origLookup v.pyStr) && pkEmpty v)) = true
  · by_cases hcols : newRowCols rest (Row.clean row) = []
    · exact ⟨st, procRow_new_skip pk rest table schemaName user origLookup st row v hv hnew hcols⟩
    · exact ⟨_, procRow_new_insert pk rest table schemaName user origLookup st row v hv hnew hcols⟩
  · have hb := Bool.eq_false_iff.mpr hnew
    have hmk : isNewMarked row = false := by
      rcases Bool.or_eq_false_iff.mp hb with ⟨h1, _⟩
      exact h1
    have hpe : (rowFalsy (lookupDict origLookup v.pyStr) && pkEmpty v) = false :=
      (Bool.or_eq_false_iff.mp hb).2
    by_cases hfal : rowFalsy (lookupDict origLookup v.pyStr) = true
    · have hpke : pkEmpty v = false := by
        rcases Bool.and_eq_false_iff.mp hpe with h1 | h1
        · rw [hfal] at h1; exact Bool.noConfusion h1
        · exact h1
      exact ⟨st, procRow_unmatched pk rest table schemaName user origLookup st row v hv hmk hfal hpke⟩
    · have hbf := Bool.eq_false_iff.mpr hfal
      have hsome : ∃ orow, lookupDict origLookup v.pyStr = some orow := by
        cases hld : lookupDict origLookup v.pyStr with
        | none => rw [hld] at hbf; simp [rowFalsy] at hbf
        | some orow => exact ⟨orow, rfl⟩
      obtain ⟨orow, hld⟩ := hsome
      have hnemp : orow.isEmpty = false := by
        rw [hld] at hbf; simpa [rowFalsy] using hbf
      exact ⟨_, procRow_matched pk rest table schemaName user origLookup st row v orow hv hmk hld hnemp⟩

/-! ## Deletion pass lemmas -/

/-- The DELETE audit events for one removed original row: one per
non-primary-key schema column present in the row. -/
def delAudits (user table : String) (pkVal : Val) (rest : List String) (orow : Row) :
    List Event :=
  (rest.filter (fun c => Row.contains orow c)).map (fun c =>
    Event.audit (mkAudit user table pkVal c ((Row.find? orow c).getD Val.none) Val.none "DELETE"))

theorem procDelRow_mem (pk : String) (rest : List String) (table user : String)
    (updLookup : List (String × Row)) (st : GenState) (orow : Row) (pkVal : Val)
    (hpk : Row.find? orow pk = some pkVal)
    (hm : memDict updLookup pkVal.pyStr = true) :
    procDelRow pk rest table user updLookup st orow = Except.ok st := by
  simp only [procDelRow, hpk, hm, if_true]

theorem procDelRow_del (pk : String) (rest : List String) (table user : String)
    (updLookup : List (String × Row)) (st : GenState) (orow : Row) (pkVal : Val)
    (hpk : Row.find? orow pk = some pkVal)
    (hm : memDict updLookup pkVal.pyStr = false) :
    procDelRow pk rest table user updLookup st orow =
      Except.ok { st with
        events := st.events ++ Event.stmt (Stmt.deleteRow table pk pkVal) ::
          delAudits user table pkVal rest orow,
        deletes := st.deletes + 1 } := by
  simp only [procDelRow, hpk, hm, Bool.false_eq_true, if_false, delAudits]

/-! ## Loop lemmas -/

theorem Row.find?_eq_none_of_not_contains (r : Row) (k : String)
    (h : Row.contains r k = false) : Row.find? r k = Option.none := by
  cases hf : Row.find? r k with
  | none => rfl
  | some v =>
    rw [Row.contains, hf] at h
    exact Bool.noConfusion h

theorem foldProcRows_unchanged (pk : String) (rest : List String)
    (table schemaName user : String) (origLookup : List (String × Row))
    (current : List Row)
    (hyp : ∀ r ∈ current, ∀ st : GenState,
      procRow pk rest table schemaName user origLookup st r = Except.ok st) :
    ∀ st : GenState,
      foldProcRows pk rest table schemaName user origLookup st current = Except.ok st := by
  induction current with
  | nil => intro st; rfl
  | cons r rs ih =>
    intro st
    rw [foldProcRows, hyp r (List.mem_cons_self r rs) st]
    exact ih (fun x hx => hyp x (List.mem_cons_of_mem r hx)) st

theorem foldDelRows_unchanged (pk : String) (rest : List String)
    (table user : String) (updLookup : List (String × Row)) (original : List Row)
    (hyp : ∀ o ∈ original, ∀ st : GenState,
      procDelRow pk rest table user updLookup st o = Except.ok st) :
    ∀ st : GenState,
      foldDelRows pk rest table user updLookup st original = Except.ok st := by
  induction original with
  | nil => intro st; rfl
  | cons o os ih =>
    intro st
    rw [foldDelRows, hyp o (List.mem_cons_self o os) st]
    exact ih (fun x hx => hyp x (List.mem_cons_of_mem o hx)) st

theorem foldProcRows_error_of_bad (pk : String) (rest : List String)
    (table schemaName user : String) (origLookup : List (String × Row))
    (current : List Row)
    (h : ∃ r ∈ current, Row.contains (Row.clean r) pk = false) :
    ∀ st : GenState, ∃ st2,
      foldProcRows pk rest table schemaName user origLookup st current =
        Except.error (keyErrorMsg pk, st2) := by
  induction current with
  | nil => intro st; simp at h
  | cons r rs ih =>
    intro st
    by_cases hc : Row.contains (Row.clean r) pk = true
    · obtain ⟨st2, hok⟩ := procRow_ok_of_contains pk rest table schemaName user origLookup st r hc
      have hex : ∃ x ∈ rs, Row.contains (Row.clean x) pk = false := by
        obtain ⟨x, hx, hxf⟩ := h
        rcases List.mem_cons.mp hx with h1 | h1
        · rw [h1] at hxf; rw [hxf] at hc; exact Bool.noConfusion hc
        · exact ⟨x, h1, hxf⟩
      obtain ⟨st3, herr⟩ := ih hex st2
      exact ⟨st3, by rw [foldProcRows, hok]; exact herr⟩
    · have hcf : Row.contains (Row.clean r) pk = false := Bool.eq_false_iff.mpr hc
      refine ⟨st, ?_⟩
      rw [foldProcRows,
        procRow_error pk rest table schemaName user origLookup st r
          (Row.find?_eq_none_of_not_contains _ pk hcf)]

/-! ## Trace execution lemmas -/

theorem applyStmt_audits (st : Store) (s : Stmt) :
    (applyStmt st s).audits = st.audits := by cases s <;> rfl

theorem applyStmt_set_audits (st : Store) (s : Stmt) (x : List AuditEntry) :
    applyStmt { st with audits := x } s = { applyStmt st s with audits := x } := by
  cases s <;> rfl

theorem applyStmts_set_audits (l : List Stmt) (st : Store) (x : List AuditEntry) :
    applyStmts { st with audits := x } l = { applyStmts st l with audits := x } := by
  induction l generalizing st with
  | nil => rfl
  | cons s l ih =>
    show applyStmts (applyStmt { st with audits := x } s) l =
      { applyStmts (applyStmt st s) l with audits := x }
    rw [applyStmt_set_audits]
    exact ih (applyStmt st s)

/-- A fault-free run executes every statement against the transaction
and commits every audit write, in trace order, and never aborts. -/
theorem runTrace_nofault (base : Store) (evs : List Event) (work : Store) :
    runTrace (fun _ => false) (fun _ => false) base evs work =
      ({ applyStmts work (stmtsOf evs) with audits := work.audits ++ auditsOf evs },
       Option.none) := by
  induction evs generalizing work with
  | nil => simp [runTrace, applyStmts, stmtsOf, auditsOf]
  | cons e evs ih =>
    cases e with
    | stmt s =>
      rw [runTrace, if_neg (by simp)]
      rw [ih (applyStmt work s)]
      simp [stmtsOf, auditsOf, applyStmts, applyStmt_audits]
    | audit a =>
      rw [runTrace, if_neg (by simp)]
      rw [ih { work with audits := work.audits ++ [a] }]
      rw [applyStmts_set_audits]
      simp [stmtsOf, auditsOf]

/-- Whenever a run aborts, the table is rolled back to its pre-call
state (the audit rows, committed separately, are whatever the trace
managed to write). -/
theorem runTrace_rows_of_err (failS : Stmt → Bool) (failA : AuditEntry → Bool)
    (base : Store) :
    ∀ (evs : List Event) (work : Store) (m : String),
      (runTrace failS failA base evs work).2 = some m →
      (runTrace failS failA base evs work).1.rows = base.rows := by
  intro evs
  induction evs with
  | nil => intro work m h; simp [runTrace] at h
  | cons e evs ih =>
    intro work m h
    cases e with
    | stmt s =>
      by_cases hf : failS s = true
      · simp [runTrace, hf]
      · rw [runTrace, if_neg (by simp [hf])] at h ⊢
        exact ih _ m h
    | audit a =>
      by_cases hf : failA a = true
      · rw [runTrace, if_pos hf] at h ⊢
        exact ih _ m h
      · rw [runTrace, if_neg (by simp [hf])] at h ⊢
        exact ih _ m h

/-! ## Small trace and message lemmas -/

theorem stmtsOf_append (l1 l2 : List Event) :
    stmtsOf (l1 ++ l2) = stmtsOf l1 ++ stmtsOf l2 := by
  simp [stmtsOf, List.filterMap_append]

theorem auditsOf_append (l1 l2 : List Event) :
    auditsOf (l1 ++ l2) = auditsOf l1 ++ auditsOf l2 := by
  simp [auditsOf, List.filterMap_append]

theorem stmtsOf_audit_map {α : Type} (f : α → AuditEntry) (l : List α) :
    stmtsOf (l.map (fun c => Event.audit (f c))) = [] := by
  induction l with
  | nil => rfl
  | cons c l ih => simpa [stmtsOf, List.filterMap_cons] using ih

theorem stmtsOf_updAudits (user table : String) (pkv : Val) (rest : List String)
    (orow row : Row) : stmtsOf (updAudits user table pkv rest orow row) = [] :=
  stmtsOf_audit_map _ _

theorem intercalate_one (s a : String) : String.intercalate s [a] = a := by
  simp [String.intercalate, String.intercalate.go]

theorem summaryMsg_changes (k : Nat) (hk : 0 < k) :
    summaryMsg 0 k 0 = toString k ++ " changes made - all logged" := by
  have h0 : ¬ (0 : Nat) > 0 := by omega
  simp only [summaryMsg, if_pos hk, if_neg h0, List.nil_append, List.append_nil,
    List.isEmpty_cons, Bool.false_eq_true, if_false]
  rw [intercalate_one, String.append_assoc]
  rfl

/-! ## Top-level pipeline lemmas -/

theorem generate_err_of_badOriginal (pk : String) (rest : List String)
    (table schemaName user : String) (current original : List Row) (seq0 : Int)
    (h : ∃ r ∈ original, Row.contains r pk = false) :
    generate pk rest table schemaName user current original seq0 =
      ([], 0, 0, 0, some (keyErrorMsg pk)) := by
  unfold generate
  rw [buildLookup_error pk original h]

theorem generate_err_of_badCurrent (pk : String) (rest : List String)
    (table schemaName user : String) (current original : List Row) (seq0 : Int)
    (ho : ∀ r ∈ original, Row.contains r pk = true)
    (hc : ∃ r ∈ current, Row.contains (Row.clean r) pk = false) :
    ∃ evs i c d, generate pk rest table schemaName user current original seq0 =
      (evs, i, c, d, some (keyErrorMsg pk)) := by
  unfold generate
  rw [buildLookup_ok pk original ho]
  obtain ⟨st2, herr⟩ := foldProcRows_error_of_bad pk rest table schemaName user
    (original.map (fun o => (strPkRaw pk o, o))) current hc
    { events := [], inserts := 0, changes := 0, deletes := 0, seq := seq0 }
  refine ⟨st2.events, st2.inserts, st2.changes, st2.deletes, ?_⟩
  simp only [herr]

theorem updateTableData_of_generate_err (pk : String) (rest : List String)
    (table schemaName user : String) (current original : List Row) (store0 : Store)
    (evs : List Event) (i c d : Nat) (m : String)
    (hgen : generate pk rest table schemaName user current original store0.seq =
      (evs, i, c, d, some m)) :
    updateTableData (pk :: rest) table schemaName user current original store0
        (fun _ => false) (fun _ => false) =
      { store := { rows := store0.rows, audits := store0.audits ++ auditsOf evs,
                   seq := (applyStmts store0 (stmtsOf evs)).seq },
        ok := false, msg := m } := by
  simp only [updateTableData, hgen, runTrace_nofault]

/-! ## Claim theorems -/

/-- C3: for every current row matching an original row by stringified
primary key, if at least one non-key column differs under string
comparison the row produces exactly one UPDATE statement whose SET
clause batches all differing columns, preceded by exactly one UPDATE
audit entry per differing column carrying that column's old and new
values; if no column differs (so e.g. `Val.int 7` vs `Val.str "7"` is
not a change) the row is processed with no statement and no audit. -/
theorem c3_matched_row_single_update (pk : String) (rest : List String)
    (table schemaName user : String) (origLookup : List (String × Row))
    (st : GenState) (row : Row) (pkv : Val) (orow : Row)
    (hpk : Row.find? (Row.clean row) pk = some pkv)
    (hmk : isNewMarked row = false)
    (hlk : lookupDict origLookup pkv.pyStr = some orow)
    (hne : orow.isEmpty = false) :
    (diffCols rest orow row ≠ [] →
      procRow pk rest table schemaName user origLookup st row =
        Except.ok { st with
          events := st.events ++ updAudits user table pkv rest orow row ++
            [Event.stmt (Stmt.updateRow table (updSets rest orow row) pk pkv)],
          changes := st.changes + (diffCols rest orow row).length }) ∧
    (diffCols rest orow row = [] →
      procRow pk rest table schemaName user origLookup st row = Except.ok st) := by
  have h := procRow_matched pk rest table schemaName user origLookup st row pkv orow
    hpk hmk hlk hne
  constructor
  · intro hd
    rw [h, if_neg (by simpa [List.isEmpty_iff] using hd)]
  · intro hd
    rw [h]
    simp [hd, updAudits, updSets, List.isEmpty_iff]

/-- Witness for C3 at a concrete matched row: columns `a` differs,
column `b` holds `Val.int 7` against `Val.str "7"` and is not treated
as a change. -/
theorem c3_witness :
    procRow "id" ["a", "b"] "t" "s" "u"
      [("1", [("id", Val.int 1), ("a", Val.str "x"), ("b", Val.int 7)])]
      { events := [], inserts := 0, changes := 0, deletes := 0, seq := 5 }
      [("id", Val.int 1), ("a", Val.str "x2"), ("b", Val.str "7")] =
      Except.ok
        { events := [Event.audit
            { username := "u", tableName := "t", recordId := "1", columnName := "a",
              oldValue := some "x", newValue := some "x2", actionType := "UPDATE" },
            Event.stmt (Stmt.updateRow "t" [("a", Val.str "x2")] "id" (Val.int 1))],
          inserts := 0, changes := 1, deletes := 0, seq := 5 } := by
  have h := (c3_matched_row_single_update "id" ["a", "b"] "t" "s" "u"
    [("1", [("id", Val.int 1), ("a", Val.str "x"), ("b", Val.int 7)])]
    { events := [], inserts := 0, changes := 0, deletes := 0, seq := 5 }
    [("id", Val.int 1), ("a", Val.str "x2"), ("b", Val.str "7")]
    (Val.int 1) [("id", Val.int 1), ("a", Val.str "x"), ("b", Val.int 7)]
    (by decide) (by decide) (by decide) (by decide)).1 (by decide)
  rw [h]
  decide

/-- C4: the deletion pass is a separate loop over the original snapshot
against `updated_lookup`; membership in that lookup holds exactly for
the stringified primary keys of current rows not carrying a truthy
`__new_row` marker (and having the key field); every original row whose
stringified key is absent produces exactly one DELETE statement plus
one DELETE audit entry per non-key schema column present in the row,
each with null new value. -/
theorem c4_deletion_pass (pk : String) (rest : List String) (table user : String)
    (current : List Row) (st : GenState) (orow : Row) (pkVal : Val)
    (hpk : Row.find? orow pk = some pkVal)
    (habs : memDict (buildUpdLookup pk current) pkVal.pyStr = false) :
    procDelRow pk rest table user (buildUpdLookup pk current) st orow =
      Except.ok { st with
        events := st.events ++ Event.stmt (Stmt.deleteRow table pk pkVal) ::
          delAudits user table pkVal rest orow,
        deletes := st.deletes + 1 } ∧
    (∀ k, memDict (buildUpdLookup pk current) k =
      current.any (fun r => !isNewMarked r && Row.contains (Row.clean r) pk &&
        (strPkClean pk r = k))) ∧
    (∀ a : AuditEntry, Event.audit a ∈ delAudits user table pkVal rest orow →
      a.newValue = Option.none ∧ a.actionType = "DELETE") := by
  refine ⟨procDelRow_del pk rest table user _ st orow pkVal hpk habs,
    fun k => memDict_buildUpdLookup pk current k, ?_⟩
  intro a ha
  obtain ⟨c, _, hc⟩ := List.mem_map.mp ha
  cases hc
  exact ⟨rfl, rfl⟩

/-- Witness for C4: key "2" absent from the current snapshot is deleted
with one DELETE audit per present non-key column. -/
theorem c4_witness :
    procDelRow "id" ["a"] "t" "u"
      (buildUpdLookup "id" [[("id", Val.int 1), ("a", Val.str "x")]])
      { events := [], inserts := 0, changes := 0, deletes := 0, seq := 9 }
      [("id", Val.int 2), ("a", Val.str "y")] =
      Except.ok
        { events := [Event.stmt (Stmt.deleteRow "t" "id" (Val.int 2)),
            Event.audit
              { username := "u", tableName := "t", recordId := "2", columnName := "a",
                oldValue := some "y", newValue := Option.none, actionType := "DELETE" }],
          inserts := 0, changes := 0, deletes := 1, seq := 9 } := by
  have h := (c4_deletion_pass "id" ["a"] "t" "u"
    [[("id", Val.int 1), ("a", Val.str "x")]]
    { events := [], inserts := 0, changes := 0, deletes := 0, seq := 9 }
    [("id", Val.int 2), ("a", Val.str "y")] (Val.int 2)
    (by decide) (by decide)).1
  rw [h]
  decide

/-- C5: a current row classified NEW is skipped with no database effect
and no audit entries when every non-key schema column of its cleaned
form is absent, empty-string or null (third conjunct characterises that
condition as `newRowCols = []`); otherwise it issues exactly one INSERT
whose primary key is `nextval` of the sequence literal
`{schema}.{table}_{pk_column}_seq`, with one INSERT audit entry per
inserted column carrying a null old value, and increments the insert
counter by one. -/
theorem c5_new_row_insert_or_skip (pk : String) (rest : List String)
    (table schemaName user : String) (origLookup : List (String × Row))
    (st : GenState) (row : Row) (pkv : Val)
    (hpk : Row.find? (Row.clean row) pk = some pkv)
    (hnew : (isNewMarked row ||
      (rowFalsy (lookupDict origLookup pkv.pyStr) && pkEmpty pkv)) = true) :
    (newRowCols rest (Row.clean row) = [] →
      procRow pk rest table schemaName user origLookup st row = Except.ok st) ∧
    (newRowCols rest (Row.clean row) ≠ [] →
      procRow pk rest table schemaName user origLookup st row =
        Except.ok { st with
          events := st.events ++
            Event.stmt (Stmt.insertRow table pk
              (schemaName ++ "." ++ table ++ "_" ++ pk ++ "_seq")
              (newRowCols rest (Row.clean row))
              ((newRowCols rest (Row.clean row)).map
                (fun c => (Row.find? (Row.clean row) c).getD Val.none))) ::
            (newRowCols rest (Row.clean row)).map (fun c =>
              Event.audit (mkAudit user table (Val.int st.seq) c Val.none
                ((Row.find? (Row.clean row) c).getD Val.none) "INSERT")),
          inserts := st.inserts + 1, seq := st.seq + 1 }) ∧
    (newRowCols rest (Row.clean row) = [] ↔
      ∀ c ∈ rest, ∀ v, Row.find? (Row.clean row) c = some v → emptyStrOrNone v = true) := by
  refine ⟨procRow_new_skip pk rest table schemaName user origLookup st row pkv hpk hnew,
    procRow_new_insert pk rest table schemaName user origLookup st row pkv hpk hnew, ?_⟩
  unfold newRowCols
  rw [List.filter_eq_nil_iff]
  constructor
  · intro h c hc v hv
    have := h c hc
    rw [hv] at this
    simpa using this
  · intro h c hc
    cases hv : Row.find? (Row.clean row) c with
    | none => simp
    | some v => simpa using h c hc v hv

/-- Witness for C5: a marked new row with one populated column is
inserted with the sequence-generated key and one INSERT audit. -/
theorem c5_witness :
    procRow "id" ["a", "b"] "t" "s" "u" []
      { events := [], inserts := 0, changes := 0, deletes := 0, seq := 42 }
      [("id", Val.str ""), ("a", Val.str "hello"), ("__new_row", Val.bool true)] =
      Except.ok
        { events := [Event.stmt (Stmt.insertRow "t" "id" "s.t_id_seq" ["a"] [Val.str "hello"]),
            Event.audit
              { username := "u", tableName := "t", recordId := "42", columnName := "a",
                oldValue := Option.none, newValue := some "hello", actionType := "INSERT" }],
          inserts := 1, changes := 0, deletes := 0, seq := 43 } := by
  have h := (c5_new_row_insert_or_skip "id" ["a", "b"] "t" "s" "u" []
    { events := [], inserts := 0, changes := 0, deletes := 0, seq := 42 }
    [("id", Val.str ""), ("a", Val.str "hello"), ("__new_row", Val.bool true)]
    (Val.str "") (by decide) (by decide)).2.1 (by decide)
  rw [h]
  decide

/-- C6: a current row that is not flagged new, has a non-empty primary
key and matches no original row is silently skipped: no statement, no
audit entry, no error, no counter change. -/
theorem c6_unmatched_row_skipped (pk : String) (rest : List String)
    (table schemaName user : String) (origLookup : List (String × Row))
    (st : GenState) (row : Row) (pkv : Val)
    (hpk : Row.find? (Row.clean row) pk = some pkv)
    (hmk : isNewMarked row = false)
    (hpke : pkEmpty pkv = false)
    (hlk : lookupDict origLookup pkv.pyStr = Option.none) :
    procRow pk rest table schemaName user origLookup st row = Except.ok st :=
  procRow_unmatched pk rest table schemaName user origLookup st row pkv hpk hmk
    (by rw [hlk]; rfl) hpke

/-- Witness for C6: primary key 99 matches nothing; the row is dropped
without effect. -/
theorem c6_witness :
    procRow "id" ["a"] "t" "s" "u"
      [("1", [("id", Val.int 1), ("a", Val.str "x")])]
      { events := [], inserts := 0, changes := 0, deletes := 0, seq := 7 }
      [("id", Val.int 99), ("a", Val.str "z")] =
      Except.ok { events := [], inserts := 0, changes := 0, deletes := 0, seq := 7 } :=
  c6_unmatched_row_skipped "id" ["a"] "t" "s" "u"
    [("1", [("id", Val.int 1), ("a", Val.str "x")])]
    { events := [], inserts := 0, changes := 0, deletes := 0, seq := 7 }
    [("id", Val.int 99), ("a", Val.str "z")] (Val.int 99)
    (by decide) (by decide) (by decide) (by decide)

/-- C9: the reported change count is per differing (row, column) pair,
not per UPDATE statement: a matched row with `k` differing non-key
columns adds `k` to `changes_count` while contributing exactly one
UPDATE statement (the audit events contribute none), and the success
summary then reads `"k changes made - all logged"`. -/
theorem c9_changes_counted_per_column (pk : String) (rest : List String)
    (table schemaName user : String) (origLookup : List (String × Row))
    (st : GenState) (row : Row) (pkv : Val) (orow : Row) (k : Nat)
    (hpk : Row.find? (Row.clean row) pk = some pkv)
    (hmk : isNewMarked row = false)
    (hlk : lookupDict origLookup pkv.pyStr = some orow)
    (hne : orow.isEmpty = false)
    (hk : (diffCols rest orow row).length = k)
    (hk0 : 0 < k) :
    procRow pk rest table schemaName user origLookup st row =
      Except.ok { st with
        events := st.events ++ updAudits user table pkv rest orow row ++
          [Event.stmt (Stmt.updateRow table (updSets rest orow row) pk pkv)],
        changes := st.changes + k } ∧
    stmtsOf (updAudits user table pkv rest orow row ++
      [Event.stmt (Stmt.updateRow table (updSets rest orow row) pk pkv)]) =
      [Stmt.updateRow table (updSets rest orow row) pk pkv] ∧
    (updAudits user table pkv rest orow row).length = k ∧
    summaryMsg 0 k 0 = toString k ++ " changes made - all logged" := by
  have hd : diffCols rest orow row ≠ [] := by
    intro hh
    rw [hh] at hk
    simp at hk
    omega
  refine ⟨?_, ?_, ?_, summaryMsg_changes k hk0⟩
  · have h := procRow_matched pk rest table schemaName user origLookup st row pkv orow
      hpk hmk hlk hne
    rw [h, if_neg (by simpa [List.isEmpty_iff] using hd), hk]
  · rw [stmtsOf_append, stmtsOf_updAudits]
    rfl
  · rw [updAudits, List.length_map, hk]

/-- Witness for C9: two columns differ, the count is 2, one UPDATE. -/
theorem c9_witness :
    procRow "id" ["a", "b"] "t" "s" "u"
      [("1", [("id", Val.int 1), ("a", Val.str "x"), ("b", Val.str "y")])]
      { events := [], inserts := 0, changes := 0, deletes := 0, seq := 3 }
      [("id", Val.int 1), ("a", Val.str "x2"), ("b", Val.str "y2")] =
      Except.ok
        { events := [Event.audit
            { username := "u", tableName := "t", recordId := "1", columnName := "a",
              oldValue := some "x", newValue := some "x2", actionType := "UPDATE" },
            Event.audit
            { username := "u", tableName := "t", recordId := "1", columnName := "b",
              oldValue := some "y", newValue := some "y2", actionType := "UPDATE" },
            Event.stmt (Stmt.updateRow "t" [("a", Val.str "x2"), ("b", Val.str "y2")]
              "id" (Val.int 1))],
          inserts := 0, changes := 2, deletes := 0, seq := 3 } ∧
    summaryMsg 0 2 0 = "2 changes made - all logged" := by
  have h := c9_changes_counted_per_column "id" ["a", "b"] "t" "s" "u"
    [("1", [("id", Val.int 1), ("a", Val.str "x"), ("b", Val.str "y")])]
    { events := [], inserts := 0, changes := 0, deletes := 0, seq := 3 }
    [("id", Val.int 1), ("a", Val.str "x2"), ("b", Val.str "y2")]
    (Val.int 1) [("id", Val.int 1), ("a", Val.str "x"), ("b", Val.str "y")] 2
    (by decide) (by decide) (by decide) (by decide) (by decide) (by decide)
  refine ⟨?_, ?_⟩
  · rw [h.1]
    decide
  · rw [h.2.2.2]
    decide

/-- C10: the public interface is total.  Every internal exception is
mapped by the top-level `except` to a `(False, str(e))` result; in
particular a current row whose cleaned form lacks the primary-key
column (or an original row lacking it) raises `KeyError(pk)` inside the
loop, and the caller receives `(False, "'pk'")` with the table rolled
back, never a propagated exception.  (In the embedding every failure is
a value: `updateTableData` returns a `RunResult` on all inputs by
construction.) -/
theorem c10_total_interface (pk : String) (rest : List String)
    (table schemaName user : String) (current original : List Row) (store0 : Store)
    (h : (∃ r ∈ original, Row.contains r pk = false) ∨
         (∃ r ∈ current, Row.contains (Row.clean r) pk = false)) :
    (updateTableData (pk :: rest) table schemaName user current original store0
        (fun _ => false) (fun _ => false)).ok = false ∧
    (updateTableData (pk :: rest) table schemaName user current original store0
        (fun _ => false) (fun _ => false)).msg = keyErrorMsg pk ∧
    (updateTableData (pk :: rest) table schemaName user current original store0
        (fun _ => false) (fun _ => false)).store.rows = store0.rows := by
  by_cases hall : ∀ r ∈ original, Row.contains r pk = true
  · have hc : ∃ r ∈ current, Row.contains (Row.clean r) pk = false := by
      rcases h with h | h
      · obtain ⟨r, hr, hf⟩ := h
        rw [hall r hr] at hf
        exact Bool.noConfusion hf
      · exact h
    obtain ⟨evs, i, c, d, hgen⟩ := generate_err_of_badCurrent pk rest table schemaName
      user current original store0.seq hall hc
    rw [updateTableData_of_generate_err pk rest table schemaName user current original
      store0 evs i c d _ hgen]
    exact ⟨rfl, rfl, rfl⟩
  · have ho : ∃ r ∈ original, Row.contains r pk = false := by
      push_neg at hall
      obtain ⟨r, hr, hf⟩ := hall
      exact ⟨r, hr, Bool.eq_false_iff.mpr hf⟩
    have hgen := generate_err_of_badOriginal pk rest table schemaName user current
      original store0.seq ho
    rw [updateTableData_of_generate_err pk rest table schemaName user current original
      store0 [] 0 0 0 _ hgen]
    exact ⟨rfl, rfl, rfl⟩

/-- Witness for C10: a current row lacking the `id` column yields
`(False, "'id'")` and an unchanged table. -/
theorem c10_witness :
    (updateTableData ["id", "a"] "t" "s" "u" [[("a", Val.str "x")]] [] 
        { rows := [], audits := [], seq := 1 }
        (fun _ => false) (fun _ => false)).ok = false ∧
    (updateTableData ["id", "a"] "t" "s" "u" [[("a", Val.str "x")]] [] 
        { rows := [], audits := [], seq := 1 }
        (fun _ => false) (fun _ => false)).msg = keyErrorMsg "id" ∧
    (updateTableData ["id", "a"] "t" "s" "u" [[("a", Val.str "x")]] [] 
        { rows := [], audits := [], seq := 1 }
        (fun _ => false) (fun _ => false)).store.rows =
      ({ rows := [], audits := [], seq := 1 } : Store).rows :=
  c10_total_interface "id" ["a"] "t" "s" "u" [[("a", Val.str "x")]] []
    { rows := [], audits := [], seq := 1 } (by decide)

/-- C1 counterexample: the claim "no audit entries written by that call
exist afterwards" is false.  On a one-column change where the database
refuses the UPDATE, the call returns `(False, error)` and the table is
rolled back, but the UPDATE audit entry — committed immediately by
`log_audit_change` on its own connection before the statement ran —
survives in the audit table. -/
theorem c1_counterexample :
    updateTableData ["id", "status"] "t" "s" "u"
      [[("id", Val.int 1), ("status", Val.str "B")]]
      [[("id", Val.int 1), ("status", Val.str "A")]]
      { rows := [[("id", Val.int 1), ("status", Val.str "A")]], audits := [], seq := 2 }
      (fun _ => true) (fun _ => false) =
      { store := { rows := [[("id", Val.int 1), ("status", Val.str "A")]],
                   audits := [{ username := "u", tableName := "t", recordId := "1",
                                columnName := "status", oldValue := some "A",
                                newValue := some "B", actionType := "UPDATE" }],
                   seq := 2 },
        ok := false, msg := dbErrMsg } ∧
    (updateTableData ["id", "status"] "t" "s" "u"
      [[("id", Val.int 1), ("status", Val.str "B")]]
      [[("id", Val.int 1), ("status", Val.str "A")]]
      { rows := [[("id", Val.int 1), ("status", Val.str "A")]], audits := [], seq := 2 }
      (fun _ => true) (fun _ => false)).store.audits ≠ [] := by
  constructor
  · decide
  · decide

/-- C1 (amended): the INSERT/UPDATE/DELETE statements do run in one
transaction committed only after all rows are processed, and on any
failure the caller receives a `(False, message)` result with the table
rolled back to its pre-call state; but each audit write commits
immediately in its own separate transaction inside `log_audit_change`,
so audit entries written before the failure persist (see the
counterexample). -/
theorem c1_amended_failure_rolls_back_rows (cols : List String)
    (table schemaName user : String) (current original : List Row) (store0 : Store)
    (failS : Stmt → Bool) (failA : AuditEntry → Bool)
    (h : (updateTableData cols table schemaName user current original store0
      failS failA).ok = false) :
    (updateTableData cols table schemaName user current original store0
      failS failA).store.rows = store0.rows := by
  cases cols with
  | nil => simp [updateTableData]
  | cons pk rest =>
    rcases hgen : generate pk rest table schemaName user current original store0.seq
      with ⟨evs, i, c, d, err⟩
    rcases hrt : runTrace failS failA store0 evs store0 with ⟨st, errS⟩
    cases errS with
    | some m =>
      have hrows := runTrace_rows_of_err failS failA store0 evs store0 m (by rw [hrt])
      rw [hrt] at hrows
      simp only [updateTableData, hgen, hrt]
      exact hrows
    | none =>
      cases err with
      | some m => simp [updateTableData, hgen, hrt]
      | none =>
        exfalso
        simp only [updateTableData, hgen, hrt] at h
        exact Bool.noConfusion h

/-- Witness for C1 (amended) at the counterexample input: the failed
call leaves the table unchanged. -/
theorem c1_witness :
    (updateTableData ["id", "status"] "t" "s" "u"
      [[("id", Val.int 1), ("status", Val.str "B")]]
      [[("id", Val.int 1), ("status", Val.str "A")]]
      { rows := [[("id", Val.int 1), ("status", Val.str "A")]], audits := [], seq := 2 }
      (fun _ => true) (fun _ => false)).store.rows =
      [[("id", Val.int 1), ("status", Val.str "A")]] :=
  c1_amended_failure_rolls_back_rows ["id", "status"] "t" "s" "u"
    [[("id", Val.int 1), ("status", Val.str "B")]]
    [[("id", Val.int 1), ("status", Val.str "A")]]
    { rows := [[("id", Val.int 1), ("status", Val.str "A")]], audits := [], seq := 2 }
    (fun _ => true) (fun _ => false) (by decide)

/-- C2 counterexample: the audit-completeness invariant fails even in a
fault-free run.  For a table whose only column is the primary key,
deleting its row issues a committed DELETE (`ok = true`, the row is
gone) while writing zero audit entries, because the DELETE audit loop
runs over `columns[1:]`, which is empty. -/
theorem c2_counterexample :
    updateTableData ["id"] "t" "s" "u" [] [[("id", Val.int 1)]]
      { rows := [[("id", Val.int 1)]], audits := [], seq := 2 }
      (fun _ => false) (fun _ => false) =
      { store := { rows := [], audits := [], seq := 2 }, ok := true,
        msg := "1 rows deleted - all logged" } := by
  decide

/-- C2 (amended): every mutation staged by the call is accompanied by
audit events written before the transaction commits, except for the two
gaps the code leaves open: a DELETE of a row with no non-key column
present writes no audit entry (see the counterexample), and an audit
write the database refuses is swallowed by `log_audit_change` so the
mutation commits unaudited.  Concretely: a matched row with differing
columns emits one UPDATE audit per differing column alongside its
single UPDATE statement; an inserted row emits one INSERT audit per
inserted column alongside its single INSERT statement, at least one
since an insert only happens when some column is populated; a deleted
row emits one DELETE audit per present non-key column, at least one
when such a column exists; and in a fault-free run every audit event of
the trace is committed. -/
theorem c2_amended_mutations_audited :
    (∀ (pk : String) (rest : List String) (table schemaName user : String)
        (origLookup : List (String × Row)) (st : GenState) (row : Row)
        (pkv : Val) (orow : Row),
      Row.find? (Row.clean row) pk = some pkv → isNewMarked row = false →
      lookupDict origLookup pkv.pyStr = some orow → orow.isEmpty = false →
      diffCols rest orow row ≠ [] →
      procRow pk rest table schemaName user origLookup st row =
        Except.ok { st with
          events := st.events ++ updAudits user table pkv rest orow row ++
            [Event.stmt (Stmt.updateRow table (updSets rest orow row) pk pkv)],
          changes := st.changes + (diffCols rest orow row).length } ∧
      updAudits user table pkv rest orow row ≠ []) ∧
    (∀ (pk : String) (rest : List String) (table schemaName user : String)
        (origLookup : List (String × Row)) (st : GenState) (row : Row) (pkv : Val),
      Row.find? (Row.clean row) pk = some pkv →
      (isNewMarked row ||
        (rowFalsy (lookupDict origLookup pkv.pyStr) && pkEmpty pkv)) = true →
      newRowCols rest (Row.clean row) ≠ [] →
      procRow pk rest table schemaName user origLookup st row =
        Except.ok { st with
          events := st.events ++
            Event.stmt (Stmt.insertRow table pk
              (schemaName ++ "." ++ table ++ "_" ++ pk ++ "_seq")
              (newRowCols rest (Row.clean row))
              ((newRowCols rest (Row.clean row)).map
                (fun c => (Row.find? (Row.clean row) c).getD Val.none))) ::
            (newRowCols rest (Row.clean row)).map (fun c =>
              Event.audit (mkAudit user table (Val.int st.seq) c Val.none
                ((Row.find? (Row.clean row) c).getD Val.none) "INSERT")),
          inserts := st.inserts + 1, seq := st.seq + 1 } ∧
      (newRowCols rest (Row.clean row)).map (fun c =>
        Event.audit (mkAudit user table (Val.int st.seq) c Val.none
          ((Row.find? (Row.clean row) c).getD Val.none) "INSERT")) ≠ []) ∧
    (∀ (pk : String) (rest : List String) (table user : String)
        (updLookup : List (String × Row)) (st : GenState) (orow : Row) (pkVal : Val),
      Row.find? orow pk = some pkVal → memDict updLookup pkVal.pyStr = false →
      procDelRow pk rest table user updLookup st orow =
        Except.ok { st with
          events := st.events ++ Event.stmt (Stmt.deleteRow table pk pkVal) ::
            delAudits user table pkVal rest orow,
          deletes := st.deletes + 1 } ∧
      (rest.filter (fun c => Row.contains orow c) ≠ [] →
        delAudits user table pkVal rest orow ≠ [])) ∧
    (∀ (base : Store) (evs : List Event) (work : Store),
      (runTrace (fun _ => false) (fun _ => false) base evs work).1.audits =
        work.audits ++ auditsOf evs) := by
  refine ⟨?_, ?_, ?_, ?_⟩
  · intro pk rest table schemaName user origLookup st row pkv orow hpk hmk hlk hne hd
    constructor
    · have h := procRow_matched pk rest table schemaName user origLookup st row pkv orow
        hpk hmk hlk hne
      rw [h, if_neg (by simpa [List.isEmpty_iff] using hd)]
    · simp only [updAudits, Ne, List.map_eq_nil_iff]
      exact hd
  · intro pk rest table schemaName user origLookup st row pkv hpk hnew hcols
    refine ⟨procRow_new_insert pk rest table schemaName user origLookup st row pkv
      hpk hnew hcols, ?_⟩
    simp only [Ne, List.map_eq_nil_iff]
    exact hcols
  · intro pk rest table user updLookup st orow pkVal hpk hm
    refine ⟨procDelRow_del pk rest table user updLookup st orow pkVal hpk hm, ?_⟩
    intro hf
    simp only [delAudits, Ne, List.map_eq_nil_iff]
    exact hf
  · intro base evs work
    rw [runTrace_nofault]

/-- Witness for C2 (amended): a one-column change produces a non-empty
audit block, and a fault-free trace run commits its audit write. -/
theorem c2_witness :
    updAudits "u" "t" (Val.int 1) ["s1"]
      [("id", Val.int 1), ("s1", Val.str "A")]
      [("id", Val.int 1), ("s1", Val.str "B")] ≠ [] ∧
    (newRowCols ["s1"] (Row.clean
      [("id", Val.str ""), ("s1", Val.str "hello"), ("__new_row", Val.bool true)])).map
      (fun c => Event.audit (mkAudit "u" "t" (Val.int 7) c Val.none
        ((Row.find? (Row.clean
          [("id", Val.str ""), ("s1", Val.str "hello"), ("__new_row", Val.bool true)]) c).getD
          Val.none) "INSERT")) ≠ [] ∧
    (runTrace (fun _ => false) (fun _ => false)
      { rows := [], audits := [], seq := 0 }
      [Event.audit (mkAudit "u" "t" (Val.int 1) "s1" (Val.str "A") (Val.str "B") "UPDATE")]
      { rows := [], audits := [], seq := 0 }).1.audits =
      ({ rows := [], audits := [], seq := 0 } : Store).audits ++
        auditsOf [Event.audit (mkAudit "u" "t" (Val.int 1) "s1" (Val.str "A") (Val.str "B") "UPDATE")] := by
  refine ⟨?_, ?_, ?_⟩
  · exact (c2_amended_mutations_audited.1 "id" ["s1"] "t" "s" "u"
      [("1", [("id", Val.int 1), ("s1", Val.str "A")])]
      { events := [], inserts := 0, changes := 0, deletes := 0, seq := 5 }
      [("id", Val.int 1), ("s1", Val.str "B")] (Val.int 1)
      [("id", Val.int 1), ("s1", Val.str "A")]
      (by decide) (by decide) (by decide) (by decide) (by decide)).2
  · exact (c2_amended_mutations_audited.2.1 "id" ["s1"] "t" "s" "u" []
      { events := [], inserts := 0, changes := 0, deletes := 0, seq := 7 }
      [("id", Val.str ""), ("s1", Val.str "hello"), ("__new_row", Val.bool true)]
      (Val.str "") (by decide) (by decide) (by decide)).2
  · exact c2_amended_mutations_audited.2.2.2 _ _ _

/-- C7: on snapshots equal up to marker fields (same cleaned rows, no
current row marked new, well-formed original rows with distinct
stringified primary keys, schema columns not marker-prefixed), the call
performs zero inserts, zero changes and zero deletes — the generated
trace is empty — and returns success with exactly the message
"No changes detected", leaving the store untouched. -/
theorem c7_identity_no_changes (pk : String) (rest : List String)
    (table schemaName user : String) (current original : List Row) (store0 : Store)
    (failS : Stmt → Bool) (failA : AuditEntry → Bool)
    (hnp : ∀ c ∈ pk :: rest, isMarkerKey c = false)
    (hod : ∀ o ∈ original, Row.contains o pk = true)
    (hclean : current.map Row.clean = original.map Row.clean)
    (hnodup : (original.map (strPkRaw pk)).Nodup)
    (hmk : ∀ r ∈ current, isNewMarked r = false) :
    generate pk rest table schemaName user current original store0.seq =
      ([], 0, 0, 0, Option.none) ∧
    updateTableData (pk :: rest) table schemaName user current original store0
      failS failA = { store := store0, ok := true, msg := "No changes detected" } := by
  have hpkm : isMarkerKey pk = false := hnp pk (List.mem_cons_self pk rest)
  have hkeys : ((original.map (fun o => (strPkRaw pk o, o))).map Prod.fst).Nodup := by
    rw [List.map_map]
    simpa using hnodup
  have hcur : ∀ r ∈ current, ∃ o ∈ original, Row.clean r = Row.clean o := by
    intro r hr
    have hm : Row.clean r ∈ original.map Row.clean := by
      rw [← hclean]
      exact List.mem_map.mpr ⟨r, hr, rfl⟩
    obtain ⟨o, ho, he⟩ := List.mem_map.mp hm
    exact ⟨o, ho, he.symm⟩
  have horig : ∀ o ∈ original, ∃ r ∈ current, Row.clean r = Row.clean o := by
    intro o ho
    have hm : Row.clean o ∈ current.map Row.clean := by
      rw [hclean]
      exact List.mem_map.mpr ⟨o, ho, rfl⟩
    obtain ⟨r, hr, he⟩ := List.mem_map.mp hm
    exact ⟨r, hr, he⟩
  have hproc : ∀ r ∈ current, ∀ st : GenState,
      procRow pk rest table schemaName user
        (original.map (fun o => (strPkRaw pk o, o))) st r = Except.ok st := by
    intro r hr st
    obtain ⟨o, ho, hco⟩ := hcur r hr
    obtain ⟨v, hv⟩ := (Row.contains_iff o pk).mp (hod o ho)
    have hpkv : Row.find? (Row.clean r) pk = some v := by
      rw [hco, Row.find?_clean o pk hpkm, hv]
    have hstr : strPkRaw pk o = v.pyStr := by
      unfold strPkRaw
      rw [hv]
      rfl
    have hlk : lookupDict (original.map (fun o => (strPkRaw pk o, o))) v.pyStr = some o := by
      rw [← hstr]
      exact lookupDict_unique _ _ o hkeys (List.mem_map.mpr ⟨o, ho, rfl⟩)
    have hne : o.isEmpty = false := by
      cases o with
      | nil => rw [Row.find?_nil] at hv; exact Option.noConfusion hv
      | cons p os => rfl
    have hdiff : diffCols rest o r = [] := by
      rw [diffCols, List.filter_eq_nil_iff]
      intro c hc
      have hcm : isMarkerKey c = false := hnp c (List.mem_cons_of_mem pk hc)
      by_cases hct : Row.contains r c = true
      · have hfo : Row.find? r c = Row.find? o c := by
          rw [← Row.find?_clean r c hcm, hco, Row.find?_clean o c hcm]
        simp [hct, hfo]
      · simp [Bool.eq_false_iff.mpr hct]
    have h := procRow_matched pk rest table schemaName user _ st r v o hpkv
      (hmk r hr) hlk hne
    rw [h]
    simp [hdiff, updAudits, updSets]
  have hdel : ∀ o ∈ original, ∀ st : GenState,
      procDelRow pk rest table user (buildUpdLookup pk current) st o = Except.ok st := by
    intro o ho st
    obtain ⟨v, hv⟩ := (Row.contains_iff o pk).mp (hod o ho)
    have hmem : memDict (buildUpdLookup pk current) v.pyStr = true := by
      rw [memDict_buildUpdLookup]
      obtain ⟨r, hr, hco⟩ := horig o ho
      refine List.any_eq_true.mpr ⟨r, hr, ?_⟩
      have h1 : isNewMarked r = false := hmk r hr
      have h2 : Row.find? (Row.clean r) pk = some v := by
        rw [hco, Row.find?_clean o pk hpkm, hv]
      have h3 : Row.contains (Row.clean r) pk = true := (Row.contains_iff _ _).mpr ⟨v, h2⟩
      have h4 : strPkClean pk r = v.pyStr := by
        simp [strPkClean, strPkRaw, h2]
      simp [h1, h3, h4]
    exact procDelRow_mem pk rest table user _ st o v hv hmem
  have hgen : generate pk rest table schemaName user current original store0.seq =
      ([], 0, 0, 0, Option.none) := by
    unfold generate
    rw [buildLookup_ok pk original hod]
    simp only [foldProcRows_unchanged pk rest table schemaName user
        (original.map (fun o => (strPkRaw pk o, o))) current hproc,
      foldDelRows_unchanged pk rest table user (buildUpdLookup pk current) original hdel]
  refine ⟨hgen, ?_⟩
  simp only [updateTableData, hgen]
  rfl

/-- Witness for C7: identical one-row snapshots produce the empty trace
and "No changes detected". -/
theorem c7_witness :
    generate "id" ["a"] "t" "s" "u"
      [[("id", Val.int 1), ("a", Val.str "x")]]
      [[("id", Val.int 1), ("a", Val.str "x")]]
      ({ rows := [[("id", Val.int 1), ("a", Val.str "x")]], audits := [], seq := 5 } : Store).seq =
      ([], 0, 0, 0, Option.none) ∧
    updateTableData ["id", "a"] "t" "s" "u"
      [[("id", Val.int 1), ("a", Val.str "x")]]
      [[("id", Val.int 1), ("a", Val.str "x")]]
      { rows := [[("id", Val.int 1), ("a", Val.str "x")]], audits := [], seq := 5 }
      (fun _ => false) (fun _ => false) =
      { store := { rows := [[("id", Val.int 1), ("a", Val.str "x")]], audits := [], seq := 5 },
        ok := true, msg := "No changes detected" } :=
  c7_identity_no_changes "id" ["a"] "t" "s" "u"
    [[("id", Val.int 1), ("a", Val.str "x")]]
    [[("id", Val.int 1), ("a", Val.str "x")]]
    { rows := [[("id", Val.int 1), ("a", Val.str "x")]], audits := [], seq := 5 }
    (fun _ => false) (fun _ => false)
    (by decide) (by decide) (by decide) (by decide) (by decide)

/-! ## Round-trip machinery -/

/-- A row with each value stringified: equality of two rows "up to
`str()`", which is the comparison the reconciler itself works with. -/
def rowStr (r : Row) : List (String × String) :=
  r.map (fun p => (p.1, p.2.pyStr))

theorem applySets_keys (sets : List (String × Val)) (r : Row) :
    (applySets sets r).map Prod.fst = r.map Prod.fst := by
  induction sets generalizing r with
  | nil => rfl
  | cons p sets ih =>
    show (applySets sets (setCol r p.1 p.2)).map Prod.fst = r.map Prod.fst
    rw [ih, setCol_keys]

theorem applySets_find?_not_mem (sets : List (String × Val)) (r : Row) (k : String)
    (h : ∀ p ∈ sets, p.1 ≠ k) :
    Row.find? (applySets sets r) k = Row.find? r k := by
  induction sets generalizing r with
  | nil => rfl
  | cons p sets ih =>
    show Row.find? (applySets sets (setCol r p.1 p.2)) k = Row.find? r k
    rw [ih _ (fun q hq => h q (List.mem_cons_of_mem p hq)),
      setCol_find?_ne r p.1 k p.2 (h p (List.mem_cons_self p sets))]

theorem Row.contains_iff_mem_keys (r : Row) (k : String) :
    Row.contains r k = true ↔ k ∈ r.map Prod.fst := by
  induction r with
  | nil => simp [Row.contains, Row.find?]
  | cons p r ih =>
    rcases p with ⟨k2, v2⟩
    by_cases hk : k2 = k
    · simp [Row.contains, Row.find?_cons, hk]
    · constructor
      · intro h
        have h2 : Row.contains r k = true := by
          simpa [Row.contains, Row.find?_cons, hk] using h
        exact List.mem_cons_of_mem _ (ih.mp h2)
      · intro h
        rcases List.mem_cons.mp h with h1 | h1
        · exact absurd h1.symm hk
        · have h2 := ih.mpr h1
          simpa [Row.contains, Row.find?_cons, hk] using h2

theorem contains_setCol (r : Row) (c : String) (v : Val) (k : String) :
    Row.contains (setCol r c v) k = Row.contains r k := by
  by_cases h : k ∈ r.map Prod.fst
  · rw [(Row.contains_iff_mem_keys (setCol r c v) k).mpr (by rw [setCol_keys]; exact h),
      (Row.contains_iff_mem_keys r k).mpr h]
  · have h1 : ¬ Row.contains (setCol r c v) k = true := fun hh => h (by
      have hm := (Row.contains_iff_mem_keys _ k).mp hh
      rwa [setCol_keys] at hm)
    have h2 : ¬ Row.contains r k = true := fun hh => h ((Row.contains_iff_mem_keys r k).mp hh)
    rw [Bool.eq_false_iff.mpr h1, Bool.eq_false_iff.mpr h2]

theorem contains_applySets (sets : List (String × Val)) (r : Row) (k : String) :
    Row.contains (applySets sets r) k = Row.contains r k := by
  by_cases h : k ∈ r.map Prod.fst
  · rw [(Row.contains_iff_mem_keys (applySets sets r) k).mpr (by rw [applySets_keys]; exact h),
      (Row.contains_iff_mem_keys r k).mpr h]
  · have h1 : ¬ Row.contains (applySets sets r) k = true := fun hh => h (by
      have hm := (Row.contains_iff_mem_keys _ k).mp hh
      rwa [applySets_keys] at hm)
    have h2 : ¬ Row.contains r k = true := fun hh => h ((Row.contains_iff_mem_keys r k).mp hh)
    rw [Bool.eq_false_iff.mpr h1, Bool.eq_false_iff.mpr h2]

theorem applySets_find?_mem (sets : List (String × Val)) (r : Row) (k : String) (v : Val)
    (hnd : (sets.map Prod.fst).Nodup) (hm : (k, v) ∈ sets)
    (hc : Row.contains r k = true) :
    Row.find? (applySets sets r) k = some v := by
  induction sets generalizing r with
  | nil => simp at hm
  | cons p sets ih =>
    rw [List.map_cons, List.nodup_cons] at hnd
    rcases List.mem_cons.mp hm with h1 | h1
    · have hkeys : ∀ q ∈ sets, q.1 ≠ k := by
        intro q hq he
        refine hnd.1 ?_
        have hpk : p.1 = k := by rw [← h1]
        rw [hpk]
        exact he ▸ List.mem_map.mpr ⟨q, hq, rfl⟩
      show Row.find? (applySets sets (setCol r p.1 p.2)) k = some v
      rw [applySets_find?_not_mem sets _ k hkeys, ← h1]
      exact setCol_find?_self r k v hc
    · have hpk : p.1 ≠ k := by
        intro he
        exact hnd.1 (he ▸ List.mem_map.mpr ⟨(k, v), h1, rfl⟩)
      show Row.find? (applySets sets (setCol r p.1 p.2)) k = some v
      exact ih (setCol r p.1 p.2) hnd.2 h1 (by rw [contains_setCol]; exact hc)

theorem clean_keys_not_marker (r : Row) (c : String)
    (h : c ∈ (Row.clean r).map Prod.fst) : isMarkerKey c = false := by
  obtain ⟨p, hp, he⟩ := List.mem_map.mp h
  have hf := List.of_mem_filter hp
  rw [← he]
  simpa using hf

theorem rowStr_eq_of_find (r1 r2 : Row) (ks : List String)
    (h1 : r1.map Prod.fst = ks) (h2 : r2.map Prod.fst = ks) (hnd : ks.Nodup)
    (h : ∀ c ∈ ks,
      ((Row.find? r1 c).getD Val.none).pyStr = ((Row.find? r2 c).getD Val.none).pyStr) :
    rowStr r1 = rowStr r2 := by
  have e1 := row_eq_map_of_keys r1 ks h1 hnd
  have e2 := row_eq_map_of_keys r2 ks h2 hnd
  rw [rowStr, rowStr]
  conv_lhs => rw [e1]
  conv_rhs => rw [e2]
  rw [List.map_map, List.map_map]
  refine List.map_congr_left (fun c hc => ?_)
  simp only [Function.comp]
  exact congrArg (fun s => (c, s)) (h c hc)

/-- The primary-key value the row loop reads off a current row. -/
def rowPkv (pk : String) (row : Row) : Val :=
  (Row.find? (Row.clean row) pk).getD Val.none

/-- The original row the loop matches a current row against. -/
def rowOrig (pk : String) (origLookup : List (String × Row)) (row : Row) : Row :=
  (lookupDict origLookup (rowPkv pk row).pyStr).getD []

/-- The event block one matched current row appends to the trace. -/
def matchedBlock (pk : String) (rest : List String) (table user : String)
    (origLookup : List (String × Row)) (row : Row) : List Event :=
  updAudits user table (rowPkv pk row) rest (rowOrig pk origLookup row) row ++
    (if (diffCols rest (rowOrig pk origLookup row) row).isEmpty then []
     else [Event.stmt (Stmt.updateRow table
       (updSets rest (rowOrig pk origLookup row) row) pk (rowPkv pk row))])

/-- The event block the deletion pass appends for one original row. -/
def delBlock (pk : String) (rest : List String) (table user : String)
    (updLookup : List (String × Row)) (o : Row) : List Event :=
  if memDict updLookup (strPkRaw pk o) then []
  else Event.stmt (Stmt.deleteRow table pk ((Row.find? o pk).getD Val.none)) ::
    delAudits user table ((Row.find? o pk).getD Val.none) rest o

theorem foldProcRows_cons_ok (pk : String) (rest : List String)
    (table schemaName user : String) (origLookup : List (String × Row))
    (st st1 : GenState) (r : Row) (rs : List Row)
    (h : procRow pk rest table schemaName user origLookup st r = Except.ok st1) :
    foldProcRows pk rest table schemaName user origLookup st (r :: rs) =
      foldProcRows pk rest table schemaName user origLookup st1 rs := by
  rw [foldProcRows, h]

theorem foldDelRows_cons_ok (pk : String) (rest : List String) (table user : String)
    (updLookup : List (String × Row)) (st st1 : GenState) (o : Row) (os : List Row)
    (h : procDelRow pk rest table user updLookup st o = Except.ok st1) :
    foldDelRows pk rest table user updLookup st (o :: os) =
      foldDelRows pk rest table user updLookup st1 os := by
  rw [foldDelRows, h]

theorem foldProcRows_blocks (pk : String) (rest : List String)
    (table schemaName user : String) (origLookup : List (String × Row))
    (current : List Row)
    (hyp : ∀ r ∈ current, isNewMarked r = false ∧ Row.contains (Row.clean r) pk = true ∧
      lookupDict origLookup (rowPkv pk r).pyStr = some (rowOrig pk origLookup r) ∧
      (rowOrig pk origLookup r).isEmpty = false) :
    ∀ st : GenState,
      foldProcRows pk rest table schemaName user origLookup st current =
        Except.ok { st with
          events := st.events ++
            (current.map (matchedBlock pk rest table user origLookup)).join,
          changes := st.changes +
            (current.map (fun r =>
              (diffCols rest (rowOrig pk origLookup r) r).length)).sum } := by
  induction current with
  | nil =>
    intro st
    show Except.ok st = _
    simp
  | cons r rs ih =>
    intro st
    obtain ⟨h1, h2, h3, h4⟩ := hyp r (List.mem_cons_self r rs)
    have hpkv : Row.find? (Row.clean r) pk = some (rowPkv pk r) := by
      obtain ⟨v, hv⟩ := (Row.contains_iff _ _).mp h2
      rw [hv, rowPkv, hv]
      rfl
    rw [foldProcRows_cons_ok pk rest table schemaName user origLookup st _ r rs
      (procRow_matched pk rest table schemaName user origLookup st r
        (rowPkv pk r) (rowOrig pk origLookup r) hpkv h1 h3 h4),
      ih (fun x hx => hyp x (List.mem_cons_of_mem r hx))]
    simp [matchedBlock, List.append_assoc, Nat.add_assoc]

theorem foldDelRows_blocks (pk : String) (rest : List String) (table user : String)
    (updLookup : List (String × Row)) (original : List Row)
    (hyp : ∀ o ∈ original, Row.contains o pk = true) :
    ∀ st : GenState,
      foldDelRows pk rest table user updLookup st original =
        Except.ok { st with
          events := st.events ++
            (original.map (delBlock pk rest table user updLookup)).join,
          deletes := st.deletes +
            (original.map (fun o =>
              if memDict updLookup (strPkRaw pk o) then 0 else 1)).sum } := by
  induction original with
  | nil =>
    intro st
    show Except.ok st = _
    simp
  | cons o os ih =>
    intro st
    obtain ⟨v, hv⟩ := (Row.contains_iff _ _).mp (hyp o (List.mem_cons_self o os))
    have hsp : strPkRaw pk o = v.pyStr := by
      unfold strPkRaw
      rw [hv]
      rfl
    by_cases hm : memDict updLookup (strPkRaw pk o) = true
    · rw [foldDelRows_cons_ok pk rest table user updLookup st _ o os
        (procDelRow_mem pk rest table user updLookup st o v hv
          (by rw [← hsp]; exact hm)),
        ih (fun x hx => hyp x (List.mem_cons_of_mem o hx))]
      simp [delBlock, hm, Nat.add_assoc]
    · have hmf : memDict updLookup (strPkRaw pk o) = false := Bool.eq_false_iff.mpr hm
      rw [foldDelRows_cons_ok pk rest table user updLookup st _ o os
        (procDelRow_del pk rest table user updLookup st o v hv
          (by rw [← hsp]; exact hmf)),
        ih (fun x hx => hyp x (List.mem_cons_of_mem o hx))]
      have hval : ((Row.find? o pk).getD Val.none) = v := by rw [hv]; rfl
      simp [delBlock, hmf, hval, List.append_assoc, Nat.add_assoc]

theorem stmtsOf_join (ls : List (List Event)) :
    stmtsOf ls.join = (ls.map stmtsOf).join := by
  induction ls with
  | nil => rfl
  | cons l ls ih => simp [List.join_cons, stmtsOf_append, ih]

theorem stmtsOf_matchedBlock (pk : String) (rest : List String) (table user : String)
    (origLookup : List (String × Row)) (r : Row) :
    stmtsOf (matchedBlock pk rest table user origLookup r) =
      if (diffCols rest (rowOrig pk origLookup r) r).isEmpty then []
      else [Stmt.updateRow table (updSets rest (rowOrig pk origLookup r) r) pk (rowPkv pk r)] := by
  rw [matchedBlock, stmtsOf_append, stmtsOf_updAudits]
  by_cases hd : (diffCols rest (rowOrig pk origLookup r) r).isEmpty = true
  · simp [hd, stmtsOf]
  · have hdf := Bool.eq_false_iff.mpr hd
    simp [hdf, stmtsOf]

theorem stmtsOf_delAudits (user table : String) (pkVal : Val) (rest : List String)
    (orow : Row) : stmtsOf (delAudits user table pkVal rest orow) = [] :=
  stmtsOf_audit_map _ _

theorem stmtsOf_cons_stmt (s : Stmt) (l : List Event) :
    stmtsOf (Event.stmt s :: l) = s :: stmtsOf l := rfl

theorem stmtsOf_delBlock (pk : String) (rest : List String) (table user : String)
    (updLookup : List (String × Row)) (o : Row) :
    stmtsOf (delBlock pk rest table user updLookup o) =
      if memDict updLookup (strPkRaw pk o) then []
      else [Stmt.deleteRow table pk ((Row.find? o pk).getD Val.none)] := by
  rw [delBlock]
  by_cases hm : memDict updLookup (strPkRaw pk o) = true
  · simp [hm, stmtsOf]
  · have hmf := Bool.eq_false_iff.mpr hm
    simp only [hmf, Bool.false_eq_true, if_false]
    rw [stmtsOf_cons_stmt, stmtsOf_delAudits]

/-! ## Applying the generated statements to the store -/

theorem applyStmts_append (st : Store) (l1 l2 : List Stmt) :
    applyStmts st (l1 ++ l2) = applyStmts (applyStmts st l1) l2 := by
  simp [applyStmts, List.foldl_append]

/-- One step of replaying the UPDATE of a current row against a stored
row. -/
def updOneBy (pk : String) (rest : List String) (origLookup : List (String × Row))
    (r : Row) (o : Row) : Row :=
  if Row.find? o pk == some (rowPkv pk r) &&
      !(diffCols rest (rowOrig pk origLookup r) r).isEmpty
  then applySets (updSets rest (rowOrig pk origLookup r) r) o else o

/-- Replaying all the UPDATEs of the current snapshot against one
stored row. -/
def updByCur (pk : String) (rest : List String) (origLookup : List (String × Row))
    (cur : List Row) (o : Row) : Row :=
  cur.foldl (fun acc r => updOneBy pk rest origLookup r acc) o

/-- The UPDATE statements of the trace, one per matched row with
differing columns, in current order. -/
def updStmtsOf (pk : String) (rest : List String) (table : String)
    (origLookup : List (String × Row)) (cur : List Row) : List Stmt :=
  (cur.map (fun r =>
    if (diffCols rest (rowOrig pk origLookup r) r).isEmpty then ([] : List Stmt)
    else [Stmt.updateRow table (updSets rest (rowOrig pk origLookup r) r) pk
      (rowPkv pk r)])).join

theorem applyStmts_upd (pk : String) (rest : List String) (table : String)
    (origLookup : List (String × Row)) (cur : List Row) :
    ∀ st : Store, applyStmts st (updStmtsOf pk rest table origLookup cur) =
      { st with rows := st.rows.map (updByCur pk rest origLookup cur) } := by
  induction cur with
  | nil =>
    intro st
    have hmap : st.rows.map (updByCur pk rest origLookup []) = st.rows := by
      rw [List.map_congr_left
        (fun o _ => (rfl : updByCur pk rest origLookup [] o = id o))]
      exact List.map_id st.rows
    show st = { st with rows := st.rows.map (updByCur pk rest origLookup []) }
    rw [hmap]
  | cons r rs ih =>
    intro st
    rw [show updStmtsOf pk rest table origLookup (r :: rs) =
      (if (diffCols rest (rowOrig pk origLookup r) r).isEmpty then ([] : List Stmt)
       else [Stmt.updateRow table (updSets rest (rowOrig pk origLookup r) r) pk
         (rowPkv pk r)]) ++ updStmtsOf pk rest table origLookup rs from rfl,
      applyStmts_append]
    by_cases hd : (diffCols rest (rowOrig pk origLookup r) r).isEmpty = true
    · rw [if_pos hd]
      rw [show applyStmts st [] = st from rfl, ih st]
      congr 1
      refine (List.map_congr_left (fun o ho => ?_)).symm
      show List.foldl _ (updOneBy pk rest origLookup r o) rs = _
      have : updOneBy pk rest origLookup r o = o := by
        simp [updOneBy, hd]
      rw [this]
      rfl
    · have hdf := Bool.eq_false_iff.mpr hd
      rw [if_neg (by simp [hdf])]
      rw [show applyStmts st [Stmt.updateRow table
          (updSets rest (rowOrig pk origLookup r) r) pk (rowPkv pk r)] =
        { st with rows := st.rows.map (fun o =>
          if Row.find? o pk == some (rowPkv pk r) then
            applySets (updSets rest (rowOrig pk origLookup r) r) o else o) } from rfl]
      rw [ih]
      simp only [List.map_map]
      congr 1
      refine (List.map_congr_left (fun o ho => ?_)).symm
      show List.foldl _ (updOneBy pk rest origLookup r o) rs = _
      have : updOneBy pk rest origLookup r o =
          (if Row.find? o pk == some (rowPkv pk r) then
            applySets (updSets rest (rowOrig pk origLookup r) r) o else o) := by
        simp [updOneBy, hdf]
      rw [this]
      rfl

/-- The DELETE statements of the trace, one per original row absent
from the lookup, in original order. -/
def delStmtsOf (pk table : String) (updLookup : List (String × Row))
    (original : List Row) : List Stmt :=
  (original.map (fun o =>
    if memDict updLookup (strPkRaw pk o) then ([] : List Stmt)
    else [Stmt.deleteRow table pk ((Row.find? o pk).getD Val.none)])).join

/-- A stored row survives the deletion pass iff no deleted original row
has its primary-key value. -/
def keptBy (pk : String) (updLookup : List (String × Row)) (original : List Row)
    (r : Row) : Bool :=
  original.all (fun o => memDict updLookup (strPkRaw pk o) ||
    !(Row.find? r pk == some ((Row.find? o pk).getD Val.none)))

theorem applyStmts_del (pk table : String) (updLookup : List (String × Row))
    (original : List Row) :
    ∀ st : Store, applyStmts st (delStmtsOf pk table updLookup original) =
      { st with rows := st.rows.filter (keptBy pk updLookup original) } := by
  induction original with
  | nil =>
    intro st
    have hfil : st.rows.filter (keptBy pk updLookup []) = st.rows := by
      rw [List.filter_congr
        (fun r _ => (rfl : keptBy pk updLookup [] r = true))]
      exact List.filter_true st.rows
    show st = { st with rows := st.rows.filter (keptBy pk updLookup []) }
    rw [hfil]
  | cons o os ih =>
    intro st
    rw [show delStmtsOf pk table updLookup (o :: os) =
      (if memDict updLookup (strPkRaw pk o) then ([] : List Stmt)
       else [Stmt.deleteRow table pk ((Row.find? o pk).getD Val.none)]) ++
      delStmtsOf pk table updLookup os from rfl,
      applyStmts_append]
    by_cases hm : memDict updLookup (strPkRaw pk o) = true
    · rw [if_pos hm]
      rw [show applyStmts st [] = st from rfl, ih st]
      congr 1
      refine (List.filter_congr (fun r hr => ?_)).symm
      simp [keptBy, hm]
    · have hmf := Bool.eq_false_iff.mpr hm
      rw [if_neg (by simp [hmf])]
      rw [show applyStmts st [Stmt.deleteRow table pk ((Row.find? o pk).getD Val.none)] =
        { st with rows := st.rows.filter (fun r =>
          !(Row.find? r pk == some ((Row.find? o pk).getD Val.none))) } from rfl]
      rw [ih]
      simp only [List.filter_filter]
      congr 1
      refine (List.filter_congr (fun r hr => ?_)).symm
      simp [keptBy, hmf, Bool.and_comm]

theorem updSets_keys (rest : List String) (orow row : Row) :
    (updSets rest orow row).map Prod.fst = diffCols rest orow row := by
  rw [updSets, List.map_map]
  exact List.map_id _

theorem updOneBy_find?_pk (pk : String) (rest : List String)
    (origLookup : List (String × Row)) (r o : Row) (hp : pk ∉ rest) :
    Row.find? (updOneBy pk rest origLookup r o) pk = Row.find? o pk := by
  unfold updOneBy
  by_cases hg : (Row.find? o pk == some (rowPkv pk r) &&
      !(diffCols rest (rowOrig pk origLookup r) r).isEmpty) = true
  · rw [if_pos hg]
    refine applySets_find?_not_mem _ o pk (fun p hm => ?_)
    intro he
    refine hp ?_
    have hk : p.1 ∈ (updSets rest (rowOrig pk origLookup r) r).map Prod.fst :=
      List.mem_map.mpr ⟨p, hm, rfl⟩
    rw [updSets_keys] at hk
    rw [← he]
    exact List.mem_of_mem_filter hk
  · rw [if_neg hg]

theorem updByCur_find?_pk (pk : String) (rest : List String)
    (origLookup : List (String × Row)) (cur : List Row) (hp : pk ∉ rest) :
    ∀ o : Row, Row.find? (updByCur pk rest origLookup cur o) pk = Row.find? o pk := by
  induction cur with
  | nil => intro o; rfl
  | cons r rs ih =>
    intro o
    show Row.find? (updByCur pk rest origLookup rs (updOneBy pk rest origLookup r o)) pk = _
    rw [ih, updOneBy_find?_pk pk rest origLookup r o hp]

theorem updByCur_skip (pk : String) (rest : List String)
    (origLookup : List (String × Row)) (cur : List Row) :
    ∀ o : Row, (∀ r' ∈ cur, (Row.find? o pk == some (rowPkv pk r')) = false) →
      updByCur pk rest origLookup cur o = o := by
  induction cur with
  | nil => intro o _; rfl
  | cons r rs ih =>
    intro o h
    show updByCur pk rest origLookup rs (updOneBy pk rest origLookup r o) = o
    have hone : updOneBy pk rest origLookup r o = o := by
      unfold updOneBy
      rw [h r (List.mem_cons_self r rs)]
      simp
    rw [hone]
    exact ih o (fun r' hr' => h r' (List.mem_cons_of_mem r hr'))

theorem updByCur_fire (pk : String) (rest : List String)
    (origLookup : List (String × Row)) (l1 l2 : List Row) (r o : Row)
    (hp : pk ∉ rest)
    (hguard : (Row.find? o pk == some (rowPkv pk r)) = true)
    (hskip1 : ∀ r' ∈ l1, (Row.find? o pk == some (rowPkv pk r')) = false)
    (hskip2 : ∀ r' ∈ l2, (Row.find? o pk == some (rowPkv pk r')) = false) :
    updByCur pk rest origLookup (l1 ++ r :: l2) o =
      if (diffCols rest (rowOrig pk origLookup r) r).isEmpty then o
      else applySets (updSets rest (rowOrig pk origLookup r) r) o := by
  have h1 : updByCur pk rest origLookup (l1 ++ r :: l2) o =
      updByCur pk rest origLookup l2 (updOneBy pk rest origLookup r
        (updByCur pk rest origLookup l1 o)) := by
    unfold updByCur
    rw [List.foldl_append]
    rfl
  rw [h1, updByCur_skip pk rest origLookup l1 o hskip1]
  by_cases hd : (diffCols rest (rowOrig pk origLookup r) r).isEmpty = true
  · have hone : updOneBy pk rest origLookup r o = o := by
      unfold updOneBy
      rw [hd]
      simp
    rw [hone, if_pos hd]
    exact updByCur_skip pk rest origLookup l2 o hskip2
  · have hdf := Bool.eq_false_iff.mpr hd
    have hone : updOneBy pk rest origLookup r o =
        applySets (updSets rest (rowOrig pk origLookup r) r) o := by
      unfold updOneBy
      rw [hguard, hdf]
      simp
    rw [hone, if_neg (by simp [hdf])]
    refine updByCur_skip pk rest origLookup l2 _ (fun r' hr' => ?_)
    have hpres : Row.find? (applySets (updSets rest (rowOrig pk origLookup r) r) o) pk =
        Row.find? o pk := by
      refine applySets_find?_not_mem _ o pk (fun p hm he => ?_)
      refine hp ?_
      have hk : p.1 ∈ (updSets rest (rowOrig pk origLookup r) r).map Prod.fst :=
        List.mem_map.mpr ⟨p, hm, rfl⟩
      rw [updSets_keys] at hk
      rw [← he]
      exact List.mem_of_mem_filter hk
    rw [hpres]
    exact hskip2 r' hr'

theorem map_align {α β γ δ : Type} (f : α → γ) (g : β → γ) (F : α → δ) (G : β → δ) :
    ∀ (L : List α) (C : List β), L.map f = C.map g →
      (∀ o ∈ L, ∀ r ∈ C, f o = g r → F o = G r) →
      L.map F = C.map G := by
  intro L
  induction L with
  | nil =>
    intro C h _
    cases C with
    | nil => rfl
    | cons r C => simp at h
  | cons o L ih =>
    intro C h hp
    cases C with
    | nil => simp at h
    | cons r C =>
      rw [List.map_cons, List.map_cons] at h
      obtain ⟨h1, h2⟩ := List.cons.injEq _ _ _ _ ▸ h
      rw [List.map_cons, List.map_cons,
        hp o (List.mem_cons_self o L) r (List.mem_cons_self r C) h1,
        ih C h2 (fun x hx y hy hxy =>
          hp x (List.mem_cons_of_mem o hx) y (List.mem_cons_of_mem r hy) hxy)]

/-- Pointwise round-trip fact: replaying the UPDATE statements of the
current snapshot onto an original row yields, up to stringification,
exactly the cleaned current row with the same primary key. -/
theorem roundTrip_pointwise (pk : String) (rest : List String)
    (origLookup : List (String × Row)) (current original : List Row)
    (hnd : (pk :: rest).Nodup)
    (hLdef : origLookup = original.map (fun o => (strPkRaw pk o, o)))
    (hshape : ∀ o ∈ original, o.map Prod.fst = pk :: rest)
    (hpknd : (original.map (strPkRaw pk)).Nodup)
    (hcontains : ∀ o ∈ original, Row.contains o pk = true)
    (hcur2 : ∀ r ∈ current, (Row.clean r).map Prod.fst = pk :: rest ∧
      ∃ o2 ∈ original, Row.find? o2 pk = Row.find? (Row.clean r) pk)
    (hcurnd : (current.map (strPkClean pk)).Nodup) :
    ∀ o ∈ original, ∀ r ∈ current, strPkRaw pk o = strPkClean pk r →
      rowStr (updByCur pk rest origLookup current o) = rowStr (Row.clean r) := by
  intro o ho r hr heq
  obtain ⟨hkeys, o2, ho2, hfo2⟩ := hcur2 r hr
  have ho2s : strPkRaw pk o2 = strPkClean pk r := by
    unfold strPkClean strPkRaw
    rw [hfo2]
  have hoo : o = o2 := List.inj_on_of_nodup_map hpknd ho ho2 (by rw [heq, ho2s])
  rw [← hoo] at hfo2
  obtain ⟨v, hv⟩ := (Row.contains_iff o pk).mp (hcontains o ho)
  have hrv : Row.find? (Row.clean r) pk = some v := by rw [← hfo2, hv]
  have hpkv : rowPkv pk r = v := by rw [rowPkv, hrv]; rfl
  have hro : rowOrig pk origLookup r = o := by
    have hvs : strPkRaw pk o = v.pyStr := by unfold strPkRaw; rw [hv]; rfl
    have hlk : lookupDict origLookup (rowPkv pk r).pyStr = some o := by
      rw [hpkv, ← hvs, hLdef]
      exact lookupDict_unique _ _ o (by rw [List.map_map]; simpa using hpknd)
        (List.mem_map.mpr ⟨o, ho, rfl⟩)
    rw [rowOrig, hlk]
    rfl
  obtain ⟨l1, l2, hsplit⟩ := List.append_of_mem hr
  have hpnr : pk ∉ rest := (List.nodup_cons.mp hnd).1
  have hndr : rest.Nodup := (List.nodup_cons.mp hnd).2
  have hguard : (Row.find? o pk == some (rowPkv pk r)) = true := by
    rw [hv, hpkv]
    simp
  have hcnd2 : ((l1.map (strPkClean pk)) ++
      strPkClean pk r :: (l2.map (strPkClean pk))).Nodup := by
    have h0 := hcurnd
    rw [hsplit, List.map_append, List.map_cons] at h0
    exact h0
  have hne12 : ∀ r' ∈ l1 ++ l2, strPkClean pk r' ≠ strPkClean pk r := by
    intro r' hr' he
    have hmem : strPkClean pk r ∈ (l1.map (strPkClean pk)) ++ (l2.map (strPkClean pk)) := by
      rcases List.mem_append.mp hr' with h1 | h1
      · exact List.mem_append.mpr (Or.inl (List.mem_map.mpr ⟨r', h1, he⟩))
      · exact List.mem_append.mpr (Or.inr (List.mem_map.mpr ⟨r', h1, he⟩))
    exact (List.nodup_cons.mp (List.nodup_middle.mp hcnd2)).1 hmem
  have hskip : ∀ r' ∈ l1 ++ l2, (Row.find? o pk == some (rowPkv pk r')) = false := by
    intro r' hr'
    rw [hv]
    refine beq_eq_false_iff_ne.mpr (fun he => ?_)
    have hvv : v = rowPkv pk r' := by injection he
    refine hne12 r' hr' ?_
    rw [show strPkClean pk r' = (rowPkv pk r').pyStr from rfl, ← hvv,
      show strPkClean pk r = (rowPkv pk r).pyStr from rfl, hpkv]
  have hsk1 : ∀ r' ∈ l1, (Row.find? o pk == some (rowPkv pk r')) = false :=
    fun r' h => hskip r' (List.mem_append.mpr (Or.inl h))
  have hsk2 : ∀ r' ∈ l2, (Row.find? o pk == some (rowPkv pk r')) = false :=
    fun r' h => hskip r' (List.mem_append.mpr (Or.inr h))
  rw [hsplit, updByCur_fire pk rest origLookup l1 l2 r o hpnr hguard hsk1 hsk2, hro]
  have hshapeo : o.map Prod.fst = pk :: rest := hshape o ho
  have hmarker : ∀ c ∈ pk :: rest, isMarkerKey c = false := by
    intro c hc
    exact clean_keys_not_marker r c (by rw [hkeys]; exact hc)
  have hcontr : ∀ c ∈ rest, Row.contains r c = true := by
    intro c hc
    rw [← Row.contains_clean r c (hmarker c (List.mem_cons_of_mem pk hc))]
    rw [Row.contains_iff_mem_keys, hkeys]
    exact List.mem_cons_of_mem pk hc
  have hfrc : ∀ c ∈ rest, Row.find? r c = Row.find? (Row.clean r) c := by
    intro c hc
    rw [Row.find?_clean r c (hmarker c (List.mem_cons_of_mem pk hc))]
  have hnond : ∀ c ∈ rest, c ∉ diffCols rest o r →
      ((Row.find? o c).getD Val.none).pyStr =
        ((Row.find? (Row.clean r) c).getD Val.none).pyStr := by
    intro c hc hcd
    have hpred : ¬ (Row.contains r c &&
        !(((Row.find? o c).getD Val.none).pyStr ==
          ((Row.find? r c).getD Val.none).pyStr)) = true := by
      intro hp
      exact hcd (List.mem_filter.mpr ⟨hc, hp⟩)
    by_cases hbb : (((Row.find? o c).getD Val.none).pyStr ==
        ((Row.find? r c).getD Val.none).pyStr) = true
    · rw [← hfrc c hc]
      exact eq_of_beq hbb
    · exfalso
      refine hpred ?_
      rw [hcontr c hc, Bool.eq_false_iff.mpr hbb]
      rfl
  by_cases hd : (diffCols rest o r).isEmpty = true
  · rw [if_pos hd]
    refine rowStr_eq_of_find o (Row.clean r) (pk :: rest) hshapeo hkeys hnd ?_
    intro c hc
    rcases List.mem_cons.mp hc with hcpk | hcr
    · subst hcpk
      rw [hv, hrv]
    · have hnd2 : c ∉ diffCols rest o r := by
        rw [List.isEmpty_iff.mp hd]
        simp
      exact hnond c hcr hnd2
  · rw [if_neg (by simp [hd])]
    have hsetkeys : (updSets rest o r).map Prod.fst = diffCols rest o r := updSets_keys rest o r
    have hdnd : (diffCols rest o r).Nodup := List.Nodup.filter _ hndr
    refine rowStr_eq_of_find (applySets (updSets rest o r) o) (Row.clean r) (pk :: rest)
      (by rw [applySets_keys, hshapeo]) hkeys hnd ?_
    intro c hc
    rcases List.mem_cons.mp hc with hcpk | hcr
    · subst hcpk
      have hfa : Row.find? (applySets (updSets rest o r) o) c = Row.find? o c := by
        refine applySets_find?_not_mem _ o c (fun p hm he => ?_)
        have hk2 : p.1 ∈ diffCols rest o r := by
          rw [← hsetkeys]
          exact List.mem_map.mpr ⟨p, hm, rfl⟩
        refine hpnr ?_
        rw [← he]
        exact List.mem_of_mem_filter hk2
      rw [hfa, hv, hrv]
    · by_cases hcd : c ∈ diffCols rest o r
      · have hmem : (c, (Row.find? r c).getD Val.none) ∈ updSets rest o r := by
          rw [updSets]
          exact List.mem_map.mpr ⟨c, hcd, rfl⟩
        have hco : Row.contains o c = true := by
          rw [Row.contains_iff_mem_keys, hshapeo]
          exact List.mem_cons_of_mem pk hcr
        rw [applySets_find?_mem (updSets rest o r) o c _
          (by rw [hsetkeys]; exact hdnd) hmem hco]
        rw [show (some ((Row.find? r c).getD Val.none)).getD Val.none =
          (Row.find? r c).getD Val.none from rfl, hfrc c hcr]
      · have hfa : Row.find? (applySets (updSets rest o r) o) c = Row.find? o c := by
          refine applySets_find?_not_mem _ o c (fun p hm he => ?_)
          have hk2 : p.1 ∈ diffCols rest o r := by
            rw [← hsetkeys]
            exact List.mem_map.mpr ⟨p, hm, rfl⟩
          exact hcd (he ▸ hk2)
        rw [hfa]
        exact hnond c hcr hcd

theorem updateTableData_of_generate_ok (pk : String) (rest : List String)
    (table schemaName user : String) (current original : List Row) (store0 : Store)
    (evs : List Event) (i c d : Nat)
    (hgen : generate pk rest table schemaName user current original store0.seq =
      (evs, i, c, d, Option.none)) :
    updateTableData (pk :: rest) table schemaName user current original store0
        (fun _ => false) (fun _ => false) =
      { store := { applyStmts store0 (stmtsOf evs) with
                   audits := store0.audits ++ auditsOf evs },
        ok := true, msg := summaryMsg i c d } := by
  simp only [updateTableData, hgen, runTrace_nofault]

/-- C8 counterexample: the round-trip claim fails.  A current row whose
non-empty primary key matches nothing in the original snapshot is
silently skipped, so the call succeeds ("No changes detected") while a
fresh fetch of the table does not contain the row: the store differs
from `current` minus markers. -/
theorem c8_counterexample :
    updateTableData ["id", "x"] "t" "s" "u"
      [[("id", Val.int 5), ("x", Val.str "a")]] []
      { rows := [], audits := [], seq := 1 } (fun _ => false) (fun _ => false) =
      { store := { rows := [], audits := [], seq := 1 }, ok := true,
        msg := "No changes detected" } ∧
    (updateTableData ["id", "x"] "t" "s" "u"
      [[("id", Val.int 5), ("x", Val.str "a")]] []
      { rows := [], audits := [], seq := 1 } (fun _ => false)
      (fun _ => false)).store.rows.map rowStr ≠
      [[("id", Val.int 5), ("x", Val.str "a")]].map (fun r => rowStr (Row.clean r)) := by
  exact ⟨by decide, by decide⟩

/-- C8 (amended): the round-trip holds on the snapshots the lifecycle
actually produces, with row values compared up to `str()` (the only
comparison the reconciler performs).  If the store holds exactly the
original snapshot, original rows have exactly the schema columns with
pairwise-distinct stringified primary keys, every current row is
unmarked, cleanly shaped, and matches an original row by primary-key
value (so no INSERTs are generated — a sequence-generated key could
never equal the empty key field of the submitted row), and current
preserves the original's relative order on surviving keys, then the
call succeeds and a fresh fetch of the table equals `current` with
marker fields removed, column by column under stringification.  The
counterexample shows the unrestricted claim is false. -/
theorem c8_amended_round_trip (pk : String) (rest : List String)
    (table schemaName user : String) (current original : List Row) (store0 : Store)
    (hnd : (pk :: rest).Nodup)
    (hshape : ∀ o ∈ original, o.map Prod.fst = pk :: rest)
    (hpknd : (original.map (strPkRaw pk)).Nodup)
    (hst : store0.rows = original)
    (hcur : ∀ r ∈ current, isNewMarked r = false ∧
      (Row.clean r).map Prod.fst = pk :: rest ∧
      ∃ o ∈ original, Row.find? o pk = Row.find? (Row.clean r) pk)
    (horder : (original.filter (fun o =>
        memDict (buildUpdLookup pk current) (strPkRaw pk o))).map (strPkRaw pk) =
      current.map (strPkClean pk)) :
    (updateTableData (pk :: rest) table schemaName user current original store0
      (fun _ => false) (fun _ => false)).ok = true ∧
    (updateTableData (pk :: rest) table schemaName user current original store0
      (fun _ => false) (fun _ => false)).store.rows.map rowStr =
      current.map (fun r => rowStr (Row.clean r)) := by
  have hcontains : ∀ o ∈ original, Row.contains o pk = true := by
    intro o ho
    rw [Row.contains_iff_mem_keys, hshape o ho]
    exact List.mem_cons_self pk rest
  have hLkeys : (((original.map (fun o => (strPkRaw pk o, o))).map Prod.fst)).Nodup := by
    rw [List.map_map]
    simpa using hpknd
  have hfacts : ∀ r ∈ current, ∃ o ∈ original,
      Row.find? o pk = Row.find? (Row.clean r) pk ∧
      rowOrig pk (original.map (fun o => (strPkRaw pk o, o))) r = o ∧
      lookupDict (original.map (fun o => (strPkRaw pk o, o))) (rowPkv pk r).pyStr = some o ∧
      Row.find? (Row.clean r) pk = some (rowPkv pk r) := by
    intro r hr
    obtain ⟨hmk, hkeys, o, ho, hfo⟩ := hcur r hr
    obtain ⟨v, hv⟩ := (Row.contains_iff o pk).mp (hcontains o ho)
    have hrv : Row.find? (Row.clean r) pk = some v := by rw [← hfo, hv]
    have hpkv : rowPkv pk r = v := by rw [rowPkv, hrv]; rfl
    have hvs : strPkRaw pk o = v.pyStr := by unfold strPkRaw; rw [hv]; rfl
    have hlk : lookupDict (original.map (fun o => (strPkRaw pk o, o)))
        (rowPkv pk r).pyStr = some o := by
      rw [hpkv, ← hvs]
      exact lookupDict_unique _ _ o hLkeys (List.mem_map.mpr ⟨o, ho, rfl⟩)
    exact ⟨o, ho, hfo, by rw [rowOrig, hlk]; rfl, hlk, by rw [hrv, hpkv]⟩
  have hblocks : ∀ r ∈ current, isNewMarked r = false ∧
      Row.contains (Row.clean r) pk = true ∧
      lookupDict (original.map (fun o => (strPkRaw pk o, o))) (rowPkv pk r).pyStr =
        some (rowOrig pk (original.map (fun o => (strPkRaw pk o, o))) r) ∧
      (rowOrig pk (original.map (fun o => (strPkRaw pk o, o))) r).isEmpty = false := by
    intro r hr
    obtain ⟨o, ho, hfo, hro, hlk, hsome⟩ := hfacts r hr
    refine ⟨(hcur r hr).1, (Row.contains_iff _ _).mpr ⟨_, hsome⟩, by rw [hro]; exact hlk, ?_⟩
    rw [hro]
    cases ho2 : o with
    | nil =>
      exfalso
      have hsh := hshape o ho
      rw [ho2] at hsh
      simp at hsh
    | cons p os => rfl
  have hgen : generate pk rest table schemaName user current original store0.seq =
      ((current.map (matchedBlock pk rest table user
          (original.map (fun o => (strPkRaw pk o, o))))).join ++
        (original.map (delBlock pk rest table user (buildUpdLookup pk current))).join,
       0,
       (current.map (fun r => (diffCols rest
         (rowOrig pk (original.map (fun o => (strPkRaw pk o, o))) r) r).length)).sum,
       (original.map (fun o =>
         if memDict (buildUpdLookup pk current) (strPkRaw pk o) then 0 else 1)).sum,
       Option.none) := by
    unfold generate
    rw [buildLookup_ok pk original hcontains]
    simp only [foldProcRows_blocks pk rest table schemaName user
        (original.map (fun o => (strPkRaw pk o, o))) current hblocks,
      foldDelRows_blocks pk rest table user (buildUpdLookup pk current) original hcontains]
    simp
  have hmain := updateTableData_of_generate_ok pk rest table schemaName user current
    original store0 _ _ _ _ hgen
  have hstmts : stmtsOf
      ((current.map (matchedBlock pk rest table user
          (original.map (fun o => (strPkRaw pk o, o))))).join ++
        (original.map (delBlock pk rest table user (buildUpdLookup pk current))).join) =
      updStmtsOf pk rest table (original.map (fun o => (strPkRaw pk o, o))) current ++
        delStmtsOf pk table (buildUpdLookup pk current) original := by
    rw [stmtsOf_append, stmtsOf_join, stmtsOf_join, List.map_map, List.map_map]
    congr 1
    · rw [updStmtsOf]
      congr 1
      exact List.map_congr_left (fun r _ => stmtsOf_matchedBlock pk rest table user _ r)
    · rw [delStmtsOf]
      congr 1
      exact List.map_congr_left (fun o _ => stmtsOf_delBlock pk rest table user _ o)
  have hpnr : pk ∉ rest := (List.nodup_cons.mp hnd).1
  have hkept : ∀ o ∈ original,
      keptBy pk (buildUpdLookup pk current) original
        (updByCur pk rest (original.map (fun o => (strPkRaw pk o, o))) current o) =
      memDict (buildUpdLookup pk current) (strPkRaw pk o) := by
    intro o ho
    obtain ⟨v, hv⟩ := (Row.contains_iff o pk).mp (hcontains o ho)
    have hfind : Row.find? (updByCur pk rest
        (original.map (fun o => (strPkRaw pk o, o))) current o) pk = some v := by
      rw [updByCur_find?_pk pk rest _ current hpnr o, hv]
    have hsv : strPkRaw pk o = v.pyStr := by unfold strPkRaw; rw [hv]; rfl
    by_cases hm : memDict (buildUpdLookup pk current) (strPkRaw pk o) = true
    · rw [hm]
      refine List.all_eq_true.mpr (fun o' ho' => ?_)
      by_cases hm' : memDict (buildUpdLookup pk current) (strPkRaw pk o') = true
      · rw [hm']
        rfl
      · obtain ⟨v', hv'⟩ := (Row.contains_iff o' pk).mp (hcontains o' ho')
        have hsv' : strPkRaw pk o' = v'.pyStr := by unfold strPkRaw; rw [hv']; rfl
        have hne : v ≠ v' := by
          intro he
          refine hm' ?_
          rw [hsv', ← he, ← hsv]
          exact hm
        rw [hfind, hv', Bool.eq_false_iff.mpr hm']
        have hb : (some v == some ((some v').getD Val.none)) = false := by
          refine beq_eq_false_iff_ne.mpr (fun h => ?_)
          exact hne (Option.some.inj h)
        rw [hb]
        rfl
    · have hmf := Bool.eq_false_iff.mpr hm
      rw [hmf]
      refine Bool.eq_false_iff.mpr (fun hall => ?_)
      have h1 := List.all_eq_true.mp hall o ho
      rw [hmf, hfind, hv] at h1
      simp at h1
  have happly : (applyStmts store0 (stmtsOf
      ((current.map (matchedBlock pk rest table user
          (original.map (fun o => (strPkRaw pk o, o))))).join ++
        (original.map (delBlock pk rest table user (buildUpdLookup pk current))).join))).rows =
      (original.filter (fun o =>
        memDict (buildUpdLookup pk current) (strPkRaw pk o))).map
        (updByCur pk rest (original.map (fun o => (strPkRaw pk o, o))) current) := by
    rw [hstmts, applyStmts_append, applyStmts_upd, applyStmts_del]
    show (store0.rows.map _).filter _ = _
    rw [hst, List.filter_map]
    congr 1
    exact List.filter_congr (fun o ho => hkept o ho)
  have hcurnd : (current.map (strPkClean pk)).Nodup := by
    rw [← horder]
    exact List.Sublist.nodup
      (List.Sublist.map (strPkRaw pk) (List.filter_sublist original)) hpknd
  have hpoint := roundTrip_pointwise pk rest
    (original.map (fun o => (strPkRaw pk o, o))) current original hnd rfl hshape hpknd
    hcontains (fun r hr => ⟨(hcur r hr).2.1, (hcur r hr).2.2⟩) hcurnd
  constructor
  · rw [hmain]
  · rw [hmain]
    show (applyStmts store0 _).rows.map rowStr = _
    rw [happly, List.map_map]
    exact map_align (strPkRaw pk) (strPkClean pk) _ _ _ current horder
      (fun o ho r hr he => hpoint o (List.mem_of_mem_filter ho) r hr he)

/-- Witness for C8 (amended): one updated row and one deleted row; the
resulting table equals the current snapshot. -/
theorem c8_witness :
    (updateTableData ["id", "x"] "t" "s" "u"
      [[("id", Val.int 1), ("x", Val.str "c")]]
      [[("id", Val.int 1), ("x", Val.str "a")], [("id", Val.int 2), ("x", Val.str "b")]]
      { rows := [[("id", Val.int 1), ("x", Val.str "a")],
                 [("id", Val.int 2), ("x", Val.str "b")]], audits := [], seq := 3 }
      (fun _ => false) (fun _ => false)).ok = true ∧
    (updateTableData ["id", "x"] "t" "s" "u"
      [[("id", Val.int 1), ("x", Val.str "c")]]
      [[("id", Val.int 1), ("x", Val.str "a")], [("id", Val.int 2), ("x", Val.str "b")]]
      { rows := [[("id", Val.int 1), ("x", Val.str "a")],
                 [("id", Val.int 2), ("x", Val.str "b")]], audits := [], seq := 3 }
      (fun _ => false) (fun _ => false)).store.rows.map rowStr =
      [[("id", Val.int 1), ("x", Val.str "c")]].map (fun r => rowStr (Row.clean r)) :=
  c8_amended_round_trip "id" ["x"] "t" "s" "u"
    [[("id", Val.int 1), ("x", Val.str "c")]]
    [[("id", Val.int 1), ("x", Val.str "a")], [("id", Val.int 2), ("x", Val.str "b")]]
    { rows := [[("id", Val.int 1), ("x", Val.str "a")],
               [("id", Val.int 2), ("x", Val.str "b")]], audits := [], seq := 3 }
    (by decide) (by decide) (by decide) (by decide) (by decide) (by decide)
